import Mathlib

/-!
Verification of the GCal Extractor aggregation and report-layout engine.

This development shallowly embeds the core of the repository:
the patient-name normalization and extraction logic, the event-to-session
aggregation (`DataProcessor.process_events`), the two projections
(`generate_totales_data`, `generate_detalle_data`) from
`src/data_processor.py`, and the banded detail layout
(`ExcelGenerator.create_detalle_sheet`) from `src/excel_generator.py`.

Modelling conventions:
- Python strings are `String`/`List Char`; the whitespace class, case
  conversion and case-insensitive matching are modelled on the ASCII
  fragment (the source's inputs are ASCII-oriented per the specification).
- Python dicts (which iterate in insertion order) are association lists
  with first-match lookup; assignment to an existing key keeps its
  position, a new key is appended at the end.
- Python's `list.sort` (a stable sort) is `List.insertionSort` with the
  corresponding comparison; insertion sort is stable, so it computes the
  same list as any stable sort for a total transitive comparison.
- The third-party date parsers (`datetime.fromisoformat`,
  `datetime.strptime('%Y-%m-%d')`) are abstracted: an event's `start`
  carries the already-parsed date components (year, month, day) of the
  corresponding field when the field is present and parseable.
-/

namespace GCal

/-! ## Character-level primitives -/

/-- Whitespace as recognized by Python's `str.strip` and the regex class
`\s`, restricted to the ASCII range handled by this development. -/
def isPySpace (c : Char) : Bool :=
  c = ' ' || c = '\t' || c = '\n' || c = '\r' || c = '\x0b' || c = '\x0c'

/-! ## Name normalization (src/data_processor.py lines 18-29)

`normalize_patient_name` does `name.strip().title()` and then
`re.sub(r'\s+', ' ', ...)`. -/

/-- Python `str.strip()`: drop leading and trailing whitespace. -/
def pyStrip (l : List Char) : List Char :=
  ((l.dropWhile isPySpace).reverse.dropWhile isPySpace).reverse

/-- State machine for `re.sub(r'\s+', ' ', s)`: each maximal whitespace run
is replaced by a single space.  The boolean state records whether the
previous character was whitespace (i.e. we are inside a run that has
already emitted its space). -/
def collapseAux : Bool → List Char → List Char
  | _, [] => []
  | inRun, c :: cs =>
    if isPySpace c then
      if inRun then collapseAux true cs else ' ' :: collapseAux true cs
    else c :: collapseAux false cs

/-- Python `re.sub(r'\s+', ' ', s)`. -/
def pyCollapse (l : List Char) : List Char := collapseAux false l

/-- How Python `str.title()` maps one character, given whether the
previous character was cased: a cased character is upper-cased when the
previous character was not cased and lower-cased otherwise; any other
character is unchanged.  On the ASCII fragment, cased means alphabetic. -/
def titleMap (prevCased : Bool) (c : Char) : Char :=
  if c.isAlpha then (if prevCased then c.toLower else c.toUpper) else c

/-- State machine for Python `str.title()`.  The boolean state records
whether the previous character was cased. -/
def titleAux : Bool → List Char → List Char
  | _, [] => []
  | prevCased, c :: cs => titleMap prevCased c :: titleAux c.isAlpha cs

/-- Python `str.title()`. -/
def pyTitle (l : List Char) : List Char := titleAux false l

/-- `DataProcessor.normalize_patient_name` (src/data_processor.py lines
18-29): empty guard, then `strip`, then `title`, then whitespace-run
collapse — in exactly the source's order. -/
def normalize_patient_name (name : String) : String :=
  if name = "" then ""
  else String.mk (pyCollapse (pyTitle (pyStrip name.data)))

/-- Name normalization in the order the specification words it (spec §4.1
step 3): trim leading/trailing whitespace, collapse any whitespace run to
a single space, then title-case the whole string. -/
def normalizeSpecOrder (name : String) : String :=
  String.mk (pyTitle (pyCollapse (pyStrip name.data)))

/-! ## Patient-name extraction (src/data_processor.py lines 31-53)

`extract_patient_name` runs
`re.match(r'^Padres\s+de\s+(.+)$', event_title, re.IGNORECASE)`.
The regex is embedded as a small priority-ordered (greedy, backtracking)
matcher for exactly the item shapes the pattern uses, with Python
semantics: `\s+` and `(.+)` are greedy and backtrack from longest to
shortest, `.` does not match a newline, and `$` matches at the end of the
input or just before a trailing final newline. -/

/-- Items of the pattern `^Padres\s+de\s+(.+)$`. -/
inductive RegexItem where
  | lit (cs : List Char)
  | wsPlus
  | dotPlusGroup
  | eos
deriving DecidableEq

/-- Case-insensitive literal matching: consume `pat` from the front of the
input (comparing characters lower-cased, as `re.IGNORECASE` does on the
ASCII fragment), returning the rest. -/
def stripLitCI : List Char → List Char → Option (List Char)
  | [], l => some l
  | _ :: _, [] => none
  | p :: ps, c :: cs => if Char.toLower c = Char.toLower p then stripLitCI ps cs else none

/-- Backtracking order of a greedy repetition that may consume `1..k`
characters: the remaining suffixes of the input, longest consumption
first. -/
def descSuffixes (input : List Char) : Nat → List (List Char)
  | 0 => []
  | k+1 => input.drop (k+1) :: descSuffixes input k

/-- Backtracking order of a greedy capturing repetition: (captured
characters, remaining suffix) pairs, longest capture first. -/
def descSplits (input : List Char) : Nat → List (List Char × List Char)
  | 0 => []
  | k+1 => (input.take (k+1), input.drop (k+1)) :: descSplits input k

/-- Match a list of pattern items against the input, with Python's
priority order: a greedy repetition tries its longest consumption first
and backtracks on failure of the rest of the pattern.  Returns `none` on
failure, `some g` on success where `g` is the content of the capturing
group if one matched. -/
def reMatch : List RegexItem → List Char → Option (Option (List Char))
  | [], _ => some none
  | .lit cs :: ps, input =>
    match stripLitCI cs input with
    | some rest => reMatch ps rest
    | none => none
  | .wsPlus :: ps, input =>
    (descSuffixes input (input.takeWhile isPySpace).length).findSome?
      (fun rest => reMatch ps rest)
  | .dotPlusGroup :: ps, input =>
    (descSplits input (input.takeWhile (fun c => !(c = '\n'))).length).findSome?
      (fun s =>
        match reMatch ps s.2 with
        | some _ => some (some s.1)
        | none => none)
  | .eos :: ps, input => if input = [] ∨ input = ['\n'] then reMatch ps input else none

/-- The pattern `^Padres\s+de\s+(.+)$` of src/data_processor.py line 44. -/
def padresPattern : List RegexItem :=
  [.lit "Padres".data, .wsPlus, .lit "de".data, .wsPlus, .dotPlusGroup, .eos]

/-- `DataProcessor.extract_patient_name` (src/data_processor.py lines
31-53): empty guard; on a match of the `Padres` pattern, the normalized
captured group with flag `true`; otherwise the normalized whole title with
flag `false`. -/
def extract_patient_name (event_title : String) : String × Bool :=
  if event_title = "" then ("", false)
  else
    match reMatch padresPattern event_title.data with
    | some (some g) => (normalize_patient_name (String.mk g), true)
    | _ => (normalize_patient_name event_title, false)

/-- Closed-form (backtracking-free) description of what the greedy match
of `^Padres\s+de\s+(.+)$` returns: after the case-insensitive literal
`Padres`, a nonempty whitespace run, the literal `de` and a nonempty
whitespace run, the capture is the maximal non-newline run extending to
the end of the input or to just before a single trailing newline; when
everything after the second separator position is whitespace, the greedy
engine captures the last whitespace character before the end (or before a
final newline), provided a nonempty whitespace separator remains. -/
def padresDirect (l : List Char) : Option (List Char) :=
  match stripLitCI "Padres".data l with
  | none => none
  | some u1 =>
    if u1.takeWhile isPySpace = [] then none
    else
      match stripLitCI "de".data (u1.dropWhile isPySpace) with
      | none => none
      | some u3 =>
        let w2 := u3.takeWhile isPySpace
        let v := u3.dropWhile isPySpace
        if w2 = [] then none
        else
          match v with
          | _ :: _ =>
            let r1 := v.takeWhile (fun c => !(c = '\n'))
            let rest1 := v.dropWhile (fun c => !(c = '\n'))
            if rest1 = [] ∨ rest1 = ['\n'] then some r1 else none
          | [] =>
            match w2.reverse with
            | [] => none
            | [_] => none
            | c :: d :: rest =>
              if ¬ (c = '\n') then some [c]
              else if d ≠ '\n' ∧ rest ≠ [] then some [d]
              else none

/-- Extraction as described by the amended claim: the direct closed form
of the greedy regex match, with the source's empty guard and
normalization around it. -/
def extractDirect (event_title : String) : String × Bool :=
  if event_title = "" then ("", false)
  else
    match padresDirect event_title.data with
    | some g => (normalize_patient_name (String.mk g), true)
    | none => (normalize_patient_name event_title, false)

/-- The pattern as the claim literally words it: the title matches when it
is, case-insensitively, the literal text `Padres de ` (one single space
between the words and after `de`) followed by one or more characters; the
remainder is returned. -/
def claimLiteralRemainder (t : String) : Option String :=
  match stripLitCI "Padres de ".data t.data with
  | some (c :: cs) => some (String.mk (c :: cs))
  | _ => none

/-! ## Dates -/

/-- Date components of a parsed Python `datetime`. -/
structure PyDate where
  year : Nat
  month : Nat
  day : Nat
deriving DecidableEq

/-- Zero-padding to two digits, as `strftime('%d')` / `('%m')` do. -/
def pad2 (n : Nat) : String := if n < 10 then "0" ++ toString n else toString n

/-- Zero-padding to four digits, as `strftime('%Y')` does. -/
def pad4 (n : Nat) : String :=
  if n < 10 then "000" ++ toString n
  else if n < 100 then "00" ++ toString n
  else if n < 1000 then "0" ++ toString n
  else toString n

/-- `event_date.strftime('%d/%m/%Y')` (src/data_processor.py line 101). -/
def formatDate (d : PyDate) : String :=
  pad2 d.day ++ "/" ++ pad2 d.month ++ "/" ++ pad4 d.year

/-- Digits to the number they denote, most significant first. -/
def digitsToNat (l : List Char) : Nat := l.foldl (fun acc c => acc * 10 + (c.toNat - 48)) 0

/-- Day count of a month in the proleptic Gregorian calendar, as Python's
`datetime.date` validates it. -/
def daysInMonth (y m : Nat) : Nat :=
  if m = 2 then (if y % 4 = 0 ∧ (y % 100 ≠ 0 ∨ y % 400 = 0) then 29 else 28)
  else if m = 4 ∨ m = 6 ∨ m = 9 ∨ m = 11 then 30 else 31

/-- `datetime.strptime(s, '%d/%m/%Y')`, returning the `(year, month, day)`
components: three `/`-separated digit fields, day and month of one or two
digits, year of exactly four, with the range and calendar validation the
library performs.  The source raises `ValueError` on any other string (a
caller-contract violation per spec §7); that is modelled as `none`. -/
def parseDMY (s : String) : Option (Nat × Nat × Nat) :=
  match s.data.splitOn '/' with
  | [ds, ms, ys] =>
    if ds.all Char.isDigit ∧ ms.all Char.isDigit ∧ ys.all Char.isDigit
        ∧ 1 ≤ ds.length ∧ ds.length ≤ 2 ∧ 1 ≤ ms.length ∧ ms.length ≤ 2 ∧ ys.length = 4 then
      let d := digitsToNat ds
      let m := digitsToNat ms
      let y := digitsToNat ys
      if 1 ≤ d ∧ 1 ≤ m ∧ m ≤ 12 ∧ 1 ≤ y ∧ d ≤ daysInMonth y m then some (y, m, d) else none
    else none
  | _ => none

/-- Sort key of `sorted(key=lambda x: datetime.strptime(x, '%d/%m/%Y'))`:
the `(year, month, day)` triple.  On a string the library cannot parse the
source raises instead of sorting; the aggregator only ever produces
parseable `DD/MM/YYYY` strings, so the default triple of the `none` branch
is unreachable in the pipeline. -/
def dmyKey (s : String) : Nat × Nat × Nat :=
  match parseDMY s with
  | some k => k
  | none => (0, 0, 0)

/-- Lexicographic comparison of `(year, month, day)` triples — exactly how
Python compares two `datetime` values on the same day time. -/
def tripleLe (a b : Nat × Nat × Nat) : Bool :=
  decide (a.1 < b.1) ||
    (decide (a.1 = b.1) &&
      (decide (a.2.1 < b.2.1) || (decide (a.2.1 = b.2.1) && decide (a.2.2 ≤ b.2.2))))

/-- Chronological comparison of two `DD/MM/YYYY` strings. -/
def chronLe (a b : String) : Bool := tripleLe (dmyKey a) (dmyKey b)

/-- `dates.sort(key=lambda x: datetime.strptime(x, '%d/%m/%Y'))`
(src/data_processor.py lines 198 and 206): a stable sort by chronological
date order. -/
def sortDates (dates : List String) : List String :=
  List.insertionSort (fun a b => chronLe a b = true) dates

/-- Python's `<` on text, i.e. strict lexicographic comparison of the
code-point sequences. -/
def listLtB : List Char → List Char → Bool
  | [], [] => false
  | [], _ :: _ => true
  | _ :: _, [] => false
  | a :: as, b :: bs => if a < b then true else if b < a then false else listLtB as bs

/-- Python string `<`. -/
def strLtB (a b : String) : Bool := listLtB a.data b.data

/-- Python string `<=` (the negation of the reversed strict comparison,
as for any total order). -/
def strLeB (a b : String) : Bool := !(strLtB b a)

/-! ## Event aggregation (src/data_processor.py lines 55-133) -/

/-- The `start` field of a raw Google Calendar event: an optional
`dateTime` member (a full ISO-8601 timestamp, carried here as its parsed
date components) and an optional `date` member (a `YYYY-MM-DD` day,
likewise carried parsed). -/
structure StartField where
  dateTime : Option PyDate
  date : Option PyDate
deriving DecidableEq

/-- One raw event as `process_events` consumes it: an optional `summary`
(title), the calendar identifier and display name attached by the event
source, and the `start` field. -/
structure RawEvent where
  summary : Option String
  calendar_id : String
  calendar_name : String
  start : StartField
deriving DecidableEq

/-- Resolution of the event's start (src/data_processor.py lines 90-98):
prefer `dateTime`, else `date`, else no usable start. -/
def eventStartDate (s : StartField) : Option PyDate :=
  match s.dateTime with
  | some d => some d
  | none => s.date

/-- One stored session (the dict of src/data_processor.py lines 124-128). -/
structure SessionRecord where
  date : String
  title : String
  is_parent_session : Bool
deriving DecidableEq

/-- Per-patient data (src/data_processor.py lines 118-121). -/
structure PatientData where
  total_sessions : Nat
  sessions : List SessionRecord
deriving DecidableEq

/-- Per-calendar data (src/data_processor.py lines 111-114). -/
structure CalendarData where
  calendar_name : String
  patients : List (String × PatientData)
deriving DecidableEq

/-- The two-level grouped structure built by `process_events`, keyed by
calendar identifier. -/
abbrev ProcessedData := List (String × CalendarData)

/-- First-match lookup in an insertion-ordered dict. -/
def alistGet {β : Type} (k : String) : List (String × β) → Option β
  | [] => none
  | (k2, v) :: rest => if k2 = k then some v else alistGet k rest

/-- The Python dict pattern `if k not in d: d[k] = dflt` followed by an
in-place update of `d[k]`: an existing key keeps its position, a new key
is appended at the end holding `f dflt`. -/
def alistUpsert {β : Type} (k : String) (dflt : β) (f : β → β) : List (String × β) → List (String × β)
  | [] => [(k, f dflt)]
  | (k2, v) :: rest => if k2 = k then (k2, f v) :: rest else (k2, v) :: alistUpsert k dflt f rest

/-- Python dict assignment `d[k] = v`: an existing key keeps its position
and gets the new value, a new key is appended at the end. -/
def alistSet {β : Type} (k : String) (v : β) : List (String × β) → List (String × β)
  | [] => [(k, v)]
  | (k2, w) :: rest => if k2 = k then (k2, v) :: rest else (k2, w) :: alistSet k v rest

/-- Appending one session to a patient bucket while incrementing its
running total (src/data_processor.py lines 130-131). -/
def addSessionToPatient (s : SessionRecord) (p : PatientData) : PatientData :=
  { total_sessions := p.total_sessions + 1, sessions := p.sessions ++ [s] }

/-- Create-on-first-use of the patient bucket and the session append
(src/data_processor.py lines 116-131). -/
def addSessionToCalendar (pname : String) (s : SessionRecord) (cd : CalendarData) : CalendarData :=
  { cd with patients :=
      alistUpsert pname { total_sessions := 0, sessions := [] } (addSessionToPatient s) cd.patients }

/-- The body of the `for event in events` loop of
`DataProcessor.process_events` (src/data_processor.py lines 80-131):
skip on a missing title, a missing usable start, or an empty extracted
name; otherwise create the calendar bucket on first sight (first writer
wins for the display name), create the patient bucket on first sight, and
append the session while incrementing the running total. -/
def processEvent (pd : ProcessedData) (e : RawEvent) : ProcessedData :=
  match e.summary with
  | none => pd
  | some event_title =>
    match eventStartDate e.start with
    | none => pd
    | some d =>
      let formatted_date := formatDate d
      let pn := extract_patient_name event_title
      if pn.1 = "" then pd
      else
        let newSession : SessionRecord :=
          { date := formatted_date, title := event_title, is_parent_session := pn.2 }
        alistUpsert e.calendar_id { calendar_name := e.calendar_name, patients := [] }
          (addSessionToCalendar pn.1 newSession) pd

/-- `DataProcessor.process_events` (src/data_processor.py lines 55-133). -/
def process_events (events : List RawEvent) : ProcessedData :=
  events.foldl processEvent []

/-- An event survives the three skips of `process_events`: it has a title
field, a usable start, and a non-empty extracted patient name. -/
def survives (e : RawEvent) : Bool :=
  match e.summary with
  | none => false
  | some t =>
    match eventStartDate e.start with
    | none => false
    | some _ => decide ((extract_patient_name t).1 ≠ "")

/-! ## Totals projection (src/data_processor.py lines 135-159) -/

/-- One row of the `totales` sheet. -/
structure TotalsRow where
  calendario : String
  nombre : String
  total : Nat
deriving DecidableEq

/-- Comparison used by `totales_data.sort(key=lambda x: (x['calendario'],
x['nombre']))`: Python tuple order on the two strings. -/
def totalesLe (a b : TotalsRow) : Bool :=
  strLtB a.calendario b.calendario ||
    (decide (a.calendario = b.calendario) && strLeB a.nombre b.nombre)

/-- `DataProcessor.generate_totales_data` (src/data_processor.py lines
135-159): one row per (calendar, patient) pair in traversal order, then a
stable sort by (calendar name, patient name). -/
def generate_totales_data (pd : ProcessedData) : List TotalsRow :=
  List.insertionSort (fun a b => totalesLe a b = true)
    (pd.flatMap (fun c =>
      c.2.patients.map (fun p =>
        { calendario := c.2.calendar_name, nombre := p.1, total := p.2.total_sessions })))

/-- Sum of the `total` column. -/
def sumTotales (rows : List TotalsRow) : Nat := (rows.map (fun r => r.total)).sum

/-- Total number of sessions stored in one calendar bucket. -/
def calendarSessions (cd : CalendarData) : Nat :=
  (cd.patients.map (fun p => p.2.total_sessions)).sum

/-- Total number of sessions stored in the grouped structure. -/
def totalCount (pd : ProcessedData) : Nat := (pd.map (fun c => calendarSessions c.2)).sum

/-! ## Detail projection (src/data_processor.py lines 161-215) -/

/-- One patient column of the `detalle` sheet (the dicts of
src/data_processor.py lines 199-210). -/
structure PatientColumn where
  patient_name : String
  dates : List String
deriving DecidableEq

/-- Comparison used by `detalle_data[calendar_name].sort(key=lambda x:
x['patient_name'])`. -/
def columnLe (a b : PatientColumn) : Bool := strLeB a.patient_name b.patient_name

/-- The per-patient part of `generate_detalle_data` (src/data_processor.py
lines 185-210): split the sessions by the parent flag, keeping arrival
order, and emit a column for each non-empty list with its dates sorted
chronologically; the parent column is labeled `Padres de ` + name. -/
def buildPatientColumns (patient_name : String) (pdata : PatientData) : List PatientColumn :=
  let parent_sessions := (pdata.sessions.filter (fun s => s.is_parent_session)).map (fun s => s.date)
  let regular_sessions := (pdata.sessions.filter (fun s => !s.is_parent_session)).map (fun s => s.date)
  (if regular_sessions = [] then []
   else [{ patient_name := patient_name, dates := sortDates regular_sessions }]) ++
  (if parent_sessions = [] then []
   else [{ patient_name := "Padres de " ++ patient_name, dates := sortDates parent_sessions }])

/-- The per-calendar part of `generate_detalle_data` (src/data_processor.py
lines 185-213): append each patient's columns in patient order, then a
stable sort of the whole list by label. -/
def buildCalendarColumns (patients : List (String × PatientData)) : List PatientColumn :=
  List.insertionSort (fun a b => columnLe a b = true)
    (patients.flatMap (fun p => buildPatientColumns p.1 p.2))

/-- `DataProcessor.generate_detalle_data` (src/data_processor.py lines
161-215): a dict keyed by calendar *display name*; each calendar of the
grouped structure assigns its column list to its display name's slot. -/
def generate_detalle_data (pd : ProcessedData) : List (String × List PatientColumn) :=
  pd.foldl (fun acc c => alistSet c.2.calendar_name (buildCalendarColumns c.2.patients) acc) []

/-! ## Banded detail layout (src/excel_generator.py lines 64-107) -/

/-- One cell write `ws.cell(row=..., column=..., value=...)`. -/
structure CellWrite where
  row : Nat
  col : Nat
  val : String
deriving DecidableEq

/-- One `ws.merge_cells(start_row=..., start_column=..., end_row=...,
end_column=...)` call. -/
structure MergeSpec where
  start_row : Nat
  end_row : Nat
  start_column : Nat
  end_column : Nat
deriving DecidableEq

/-- The patient-header loop (src/excel_generator.py lines 78-89): one
row-1 label per column, in consecutive grid columns from `col0`. -/
def headerWrites (col0 : Nat) : List PatientColumn → List CellWrite
  | [] => []
  | c :: rest => { row := 1, col := col0, val := c.patient_name } :: headerWrites (col0 + 1) rest

/-- The date loop for one patient column (src/excel_generator.py lines
106-107): dates fill consecutive rows from row 3 top-down. -/
def dateWritesFor (row0 col : Nat) : List String → List CellWrite
  | [] => []
  | d :: rest => { row := row0, col := col, val := d } :: dateWritesFor (row0 + 1) col rest

/-- The per-column date loops (src/excel_generator.py lines 101-107). -/
def dateWrites (col0 : Nat) : List PatientColumn → List CellWrite
  | [] => []
  | c :: rest => dateWritesFor 3 col0 c.dates ++ dateWrites (col0 + 1) rest

/-- All cell writes of one calendar block starting at grid column `col0`:
the row-1 patient labels, the row-2 calendar cell at the start of the run,
and the date columns. -/
def blockWrites (col0 : Nat) (cname : String) (cols : List PatientColumn) : List CellWrite :=
  headerWrites col0 cols ++ [{ row := 2, col := col0, val := cname }] ++ dateWrites col0 cols

/-- The merge of one calendar block (src/excel_generator.py lines 92-94):
row 2 spanning the whole run, only when the run has more than one column. -/
def blockMerges (col0 : Nat) (cols : List PatientColumn) : List MergeSpec :=
  if cols.length > 1 then
    [{ start_row := 2, end_row := 2, start_column := col0, end_column := col0 + cols.length - 1 }]
  else []

/-- The `for calendar_name, patients in detalle_data.items()` loop of
`ExcelGenerator.create_detalle_sheet` (src/excel_generator.py lines
70-107), threading `current_col`: a calendar with no columns is skipped
entirely; otherwise its block occupies the next `len(patients)` grid
columns. -/
def detalleSheetAux (cur : Nat) : List (String × List PatientColumn) → List CellWrite × List MergeSpec
  | [] => ([], [])
  | (cname, cols) :: rest =>
    if cols = [] then detalleSheetAux cur rest
    else
      let res := detalleSheetAux (cur + cols.length) rest
      (blockWrites cur cname cols ++ res.1, blockMerges cur cols ++ res.2)

/-- `ExcelGenerator.create_detalle_sheet` (src/excel_generator.py lines
64-107), starting at grid column 1, returning all cell writes and merges. -/
def create_detalle_sheet (detalle : List (String × List PatientColumn)) :
    List CellWrite × List MergeSpec :=
  detalleSheetAux 1 detalle

/-- Reading the produced worksheet: the value at (row, col).  The
generator writes every cell at most once, so first-match lookup is
unambiguous. -/
def cellAt (writes : List CellWrite) (r c : Nat) : Option String :=
  (writes.find? (fun w => w.row == r && w.col == c)).map (fun w => w.val)

/-- Total number of grid columns taken by the first `k` calendars of the
detail input (a calendar with no columns contributes nothing). -/
def sumTake (l : List (String × List PatientColumn)) (k : Nat) : Nat :=
  ((l.take k).map (fun p => p.2.length)).sum

/-- Grid column where calendar number `k` (0-based) of the detail input
starts: column 1 plus all preceding calendars' column counts (calendars
with no columns contribute nothing). -/
def colOffset (detalle : List (String × List PatientColumn)) (k : Nat) : Nat :=
  1 + sumTake detalle k

/-! ## Title-cased predicate (for label disjointness) -/

/-- Boolean invariant of Python title-cased text, parameterized by whether
the previous character was cased: every alphabetic character that follows
a non-alphabetic position is upper case. -/
def isTitleCasedFrom (p : Bool) : List Char → Bool
  | [] => true
  | c :: cs => (if c.isAlpha && !p then c.isUpper else true) && isTitleCasedFrom c.isAlpha cs

/-- Concrete sample event used by witnesses and counterexamples: a timed
event with the given title, calendar identifier, display name and start
date. -/
def sampleEvent (t : Option String) (cid cname : String) (d : PyDate) : RawEvent :=
  { summary := t, calendar_id := cid, calendar_name := cname,
    start := { dateTime := some d, date := none } }

/-- Concrete one-calendar, one-column detail input used to exercise the
banded layout on a closed example. -/
def c6SampleDetalle : List (String × List PatientColumn) :=
  [("C", [PatientColumn.mk "A" ["x"]])]

/-! ## Character lemmas -/

theorem char_toNat_ofNat {n : Nat} (h : n < 55296) : (Char.ofNat n).toNat = n := by
  have hv : n.isValidChar := Or.inl h
  simp [Char.ofNat, hv, Char.ofNatAux, Char.toNat, UInt32.toNat, BitVec.ofNatLt]

theorem char_toNat_inj {c d : Char} (h : c.toNat = d.toNat) : c = d :=
  Char.eq_of_val_eq (UInt32.ext h)

theorem char_isUpper_iff (c : Char) : c.isUpper = (65 ≤ c.toNat && c.toNat ≤ 90) := by
  simp only [Char.isUpper, Char.toNat]
  congr 1

theorem char_isLower_iff (c : Char) : c.isLower = (97 ≤ c.toNat && c.toNat ≤ 122) := by
  simp only [Char.isLower, Char.toNat]
  congr 1

theorem char_isAlpha_iff (c : Char) :
    c.isAlpha = ((65 ≤ c.toNat && c.toNat ≤ 90) || (97 ≤ c.toNat && c.toNat ≤ 122)) := by
  simp [Char.isAlpha, char_isUpper_iff, char_isLower_iff]

theorem char_toUpper_toNat (c : Char) :
    (Char.toUpper c).toNat = if 97 ≤ c.toNat ∧ c.toNat ≤ 122 then c.toNat - 32 else c.toNat := by
  show (if 97 ≤ c.toNat ∧ c.toNat ≤ 122 then Char.ofNat (c.toNat - 32) else c).toNat = _
  split
  · rw [char_toNat_ofNat (by omega)]
  · rfl

theorem char_toLower_toNat (c : Char) :
    (Char.toLower c).toNat = if 65 ≤ c.toNat ∧ c.toNat ≤ 90 then c.toNat + 32 else c.toNat := by
  show (if 65 ≤ c.toNat ∧ c.toNat ≤ 90 then Char.ofNat (c.toNat + 32) else c).toNat = _
  split
  · rw [char_toNat_ofNat (by omega)]
  · rfl

theorem char_toUpper_isAlpha (c : Char) : (Char.toUpper c).isAlpha = c.isAlpha := by
  rw [Bool.eq_iff_iff]
  simp only [char_isAlpha_iff, char_toUpper_toNat, Bool.or_eq_true, Bool.and_eq_true,
    decide_eq_true_eq]
  split <;> omega

theorem char_toLower_isAlpha (c : Char) : (Char.toLower c).isAlpha = c.isAlpha := by
  rw [Bool.eq_iff_iff]
  simp only [char_isAlpha_iff, char_toLower_toNat, Bool.or_eq_true, Bool.and_eq_true,
    decide_eq_true_eq]
  split <;> omega

theorem char_toUpper_toUpper (c : Char) : Char.toUpper (Char.toUpper c) = Char.toUpper c := by
  apply char_toNat_inj
  simp only [char_toUpper_toNat]
  split_ifs <;> omega

theorem char_toLower_toLower (c : Char) : Char.toLower (Char.toLower c) = Char.toLower c := by
  apply char_toNat_inj
  simp only [char_toLower_toNat]
  split_ifs <;> omega

theorem char_toUpper_isUpper (c : Char) (h : c.isAlpha = true) :
    (Char.toUpper c).isUpper = true := by
  rw [char_isAlpha_iff] at h
  rw [char_isUpper_iff]
  simp only [char_toUpper_toNat]
  simp only [Bool.or_eq_true, Bool.and_eq_true, decide_eq_true_eq] at h
  simp only [Bool.and_eq_true, decide_eq_true_eq]
  split_ifs <;> omega

theorem isPySpace_toNat (c : Char) (h : isPySpace c = true) :
    c.toNat = 32 ∨ c.toNat = 9 ∨ c.toNat = 10 ∨ c.toNat = 13 ∨ c.toNat = 11 ∨ c.toNat = 12 := by
  simp only [isPySpace, Bool.or_eq_true, decide_eq_true_eq] at h
  rcases h with ((((h | h) | h) | h) | h) | h <;> subst h <;> decide

theorem isAlpha_not_pySpace (c : Char) (h : c.isAlpha = true) : isPySpace c = false := by
  cases hs : isPySpace c
  · rfl
  · exfalso
    have hns := isPySpace_toNat c hs
    rw [char_isAlpha_iff] at h
    simp only [Bool.or_eq_true, Bool.and_eq_true, decide_eq_true_eq] at h
    omega

theorem bool_eq_false {b : Bool} (h : ¬(b = true)) : b = false := by
  cases b
  · rfl
  · exact absurd rfl h

/-! ## Unfolding equations -/

theorem titleAux_cons (p : Bool) (c : Char) (cs : List Char) :
    titleAux p (c :: cs) = titleMap p c :: titleAux c.isAlpha cs := rfl

theorem collapseAux_cons_ws_true (c : Char) (cs : List Char) (h : isPySpace c = true) :
    collapseAux true (c :: cs) = collapseAux true cs := by
  simp [collapseAux, h]

theorem collapseAux_cons_ws_false (c : Char) (cs : List Char) (h : isPySpace c = true) :
    collapseAux false (c :: cs) = ' ' :: collapseAux true cs := by
  simp [collapseAux, h]

theorem collapseAux_cons_not_ws (b : Bool) (c : Char) (cs : List Char) (h : isPySpace c = false) :
    collapseAux b (c :: cs) = c :: collapseAux false cs := by
  simp [collapseAux, h]

/-! ## titleMap lemmas -/

theorem titleMap_of_not_alpha (p : Bool) (c : Char) (h : c.isAlpha = false) :
    titleMap p c = c := by
  simp [titleMap, h]

theorem titleMap_false_eq (c : Char) (h : c.isAlpha = true) :
    titleMap false c = c.toUpper := by
  simp [titleMap, h]

theorem titleMap_true_eq (c : Char) (h : c.isAlpha = true) :
    titleMap true c = c.toLower := by
  simp [titleMap, h]

theorem titleMap_pySpace (p : Bool) (c : Char) : isPySpace (titleMap p c) = isPySpace c := by
  cases ha : c.isAlpha
  · rw [titleMap_of_not_alpha p c ha]
  · have h1 : isPySpace c = false := isAlpha_not_pySpace c ha
    cases p
    · rw [titleMap_false_eq c ha, h1,
        isAlpha_not_pySpace _ (by rw [char_toUpper_isAlpha]; exact ha)]
    · rw [titleMap_true_eq c ha, h1,
        isAlpha_not_pySpace _ (by rw [char_toLower_isAlpha]; exact ha)]

theorem titleMap_isAlpha (p : Bool) (c : Char) : (titleMap p c).isAlpha = c.isAlpha := by
  cases ha : c.isAlpha
  · rw [titleMap_of_not_alpha p c ha, ha]
  · cases p
    · rw [titleMap_false_eq c ha, char_toUpper_isAlpha, ha]
    · rw [titleMap_true_eq c ha, char_toLower_isAlpha, ha]

theorem titleMap_titleMap (p : Bool) (c : Char) : titleMap p (titleMap p c) = titleMap p c := by
  cases ha : c.isAlpha
  · rw [titleMap_of_not_alpha p c ha, titleMap_of_not_alpha p c ha]
  · cases p
    · rw [titleMap_false_eq c ha,
        titleMap_false_eq c.toUpper (by rw [char_toUpper_isAlpha]; exact ha),
        char_toUpper_toUpper]
    · rw [titleMap_true_eq c ha,
        titleMap_true_eq c.toLower (by rw [char_toLower_isAlpha]; exact ha),
        char_toLower_toLower]

/-! ## Collapse and title interaction -/

theorem collapseAux_titleAux (l : List Char) :
    ∀ (b p : Bool), (b = true → p = false) →
      collapseAux b (titleAux p l) = titleAux p (collapseAux b l) := by
  induction l with
  | nil => intro b p _; rfl
  | cons c cs ih =>
    intro b p hbp
    by_cases hws : isPySpace c = true
    · have ha : c.isAlpha = false := by
        cases hA : c.isAlpha
        · rfl
        · rw [isAlpha_not_pySpace c hA] at hws; exact absurd hws (by simp)
      rw [titleAux_cons, titleMap_of_not_alpha p c ha, ha]
      cases b
      · rw [collapseAux_cons_ws_false c _ hws, collapseAux_cons_ws_false c cs hws,
          titleAux_cons]
        rw [titleMap_of_not_alpha p ' ' (by decide)]
        rw [show (' ').isAlpha = false from rfl]
        exact congrArg _ (ih true false (fun _ => rfl))
      · have hp : p = false := hbp rfl
        subst hp
        rw [collapseAux_cons_ws_true c _ hws, collapseAux_cons_ws_true c cs hws]
        exact ih true false (fun _ => rfl)
    · have hwsf : isPySpace c = false := bool_eq_false hws
      rw [titleAux_cons,
        collapseAux_cons_not_ws b (titleMap p c) _ (by rw [titleMap_pySpace, hwsf]),
        collapseAux_cons_not_ws b c cs hwsf, titleAux_cons]
      exact congrArg _ (ih false c.isAlpha (by simp))

theorem titleAux_titleAux (l : List Char) :
    ∀ p : Bool, titleAux p (titleAux p l) = titleAux p l := by
  induction l with
  | nil => intro p; rfl
  | cons c cs ih =>
    intro p
    rw [titleAux_cons, titleAux_cons, titleMap_titleMap, titleMap_isAlpha, ih c.isAlpha]

theorem collapseAux_collapseAux (l : List Char) :
    ∀ b : Bool, collapseAux b (collapseAux b l) = collapseAux b l := by
  induction l with
  | nil => intro b; rfl
  | cons c cs ih =>
    intro b
    by_cases hws : isPySpace c = true
    · cases b
      · rw [collapseAux_cons_ws_false c cs hws, collapseAux_cons_ws_false ' ' _ (by decide),
          ih true]
      · rw [collapseAux_cons_ws_true c cs hws, ih true]
    · have hwsf : isPySpace c = false := bool_eq_false hws
      rw [collapseAux_cons_not_ws b c cs hwsf, collapseAux_cons_not_ws b c _ hwsf, ih false]

/-! ## Strip lemmas -/

theorem dropWhile_eq_self_of_head (p : Char → Bool) (l : List Char)
    (h : ∀ c, l.head? = some c → p c = false) : l.dropWhile p = l := by
  cases l with
  | nil => rfl
  | cons c cs =>
    have hc := h c rfl
    rw [List.dropWhile_cons, hc]
    simp

theorem head?_dropWhile_false (p : Char → Bool) (l : List Char) (c : Char)
    (h : (l.dropWhile p).head? = some c) : p c = false := by
  have h2 := List.head?_dropWhile_not p l
  rw [h] at h2
  exact h2

theorem getLast?_dropWhile_of_ne_nil (p : Char → Bool) (l : List Char)
    (h : l.dropWhile p ≠ []) : (l.dropWhile p).getLast? = l.getLast? := by
  induction l with
  | nil => simp at h
  | cons c cs ih =>
    rw [List.dropWhile_cons]
    rw [List.dropWhile_cons] at h
    by_cases hp : p c = true
    · rw [if_pos hp]
      rw [if_pos hp] at h
      cases cs with
      | nil => simp at h
      | cons b bs => rw [List.getLast?_cons_cons]; exact ih h
    · rw [if_neg hp]

theorem pyStrip_head (l : List Char) (c : Char) (h : (pyStrip l).head? = some c) :
    isPySpace c = false := by
  unfold pyStrip at h
  rw [List.head?_reverse] at h
  have hne : (l.dropWhile isPySpace).reverse.dropWhile isPySpace ≠ [] := by
    intro he; rw [he] at h; simp at h
  rw [getLast?_dropWhile_of_ne_nil _ _ hne, List.getLast?_reverse] at h
  exact head?_dropWhile_false _ _ _ h

theorem pyStrip_getLast (l : List Char) (c : Char) (h : (pyStrip l).getLast? = some c) :
    isPySpace c = false := by
  unfold pyStrip at h
  rw [List.getLast?_reverse] at h
  exact head?_dropWhile_false _ _ _ h

theorem pyStrip_eq_self (l : List Char)
    (h1 : ∀ c, l.head? = some c → isPySpace c = false)
    (h2 : ∀ c, l.getLast? = some c → isPySpace c = false) : pyStrip l = l := by
  unfold pyStrip
  rw [dropWhile_eq_self_of_head _ _ h1]
  rw [dropWhile_eq_self_of_head _ _ (fun c hc => h2 c (by rwa [List.head?_reverse] at hc))]
  exact List.reverse_reverse l

/-! ## Last-character tracking through title and collapse -/

theorem titleAux_getLast (a : Char) (as : List Char) :
    ∀ p : Bool, ∃ c c2, (a :: as).getLast? = some c ∧
      (titleAux p (a :: as)).getLast? = some c2 ∧ isPySpace c2 = isPySpace c := by
  induction as generalizing a with
  | nil => intro p; exact ⟨a, titleMap p a, rfl, rfl, titleMap_pySpace p a⟩
  | cons b bs ih =>
    intro p
    obtain ⟨c, c2, h1, h2, h3⟩ := ih b a.isAlpha
    refine ⟨c, c2, ?_, ?_, h3⟩
    · rw [List.getLast?_cons_cons]; exact h1
    · rw [titleAux_cons, titleAux_cons]
      rw [titleAux_cons] at h2
      rw [List.getLast?_cons_cons]
      exact h2

theorem collapseAux_getLast (l : List Char) :
    ∀ (b : Bool) (c : Char), l.getLast? = some c → isPySpace c = false →
      (collapseAux b l).getLast? = some c := by
  induction l with
  | nil => intro b c h _; simp at h
  | cons a as ih =>
    intro b c h hc
    cases as with
    | nil =>
      have ha : a = c := by simpa using h
      subst ha
      rw [collapseAux_cons_not_ws b a [] hc]
      rfl
    | cons x xs =>
      rw [List.getLast?_cons_cons] at h
      have hne : (collapseAux true (x :: xs)).getLast? = some c := ih true c h hc
      have hne2 : (collapseAux false (x :: xs)).getLast? = some c := ih false c h hc
      by_cases hws : isPySpace a = true
      · cases b
        · rw [collapseAux_cons_ws_false a _ hws]
          cases hcl : collapseAux true (x :: xs) with
          | nil => rw [hcl] at hne; simp at hne
          | cons y ys =>
            rw [List.getLast?_cons_cons]
            rw [hcl] at hne
            exact hne
        · rw [collapseAux_cons_ws_true a _ hws]; exact hne
      · have hwsf := bool_eq_false hws
        rw [collapseAux_cons_not_ws b a _ hwsf]
        cases hcl : collapseAux false (x :: xs) with
        | nil => rw [hcl] at hne2; simp at hne2
        | cons y ys =>
          rw [List.getLast?_cons_cons]
          rw [hcl] at hne2
          exact hne2

/-- The normalized character list has no leading and no trailing
whitespace, so stripping it again changes nothing. -/
theorem pyStrip_normalized (l : List Char) :
    pyStrip (pyCollapse (pyTitle (pyStrip l))) = pyCollapse (pyTitle (pyStrip l)) := by
  apply pyStrip_eq_self
  · intro c hc
    cases hs : pyStrip l with
    | nil =>
      rw [hs] at hc
      simp [pyTitle, titleAux, pyCollapse, collapseAux] at hc
    | cons a as =>
      have hha : isPySpace a = false := pyStrip_head l a (by rw [hs]; rfl)
      rw [hs] at hc
      rw [show pyTitle (a :: as) = titleMap false a :: titleAux a.isAlpha as from rfl] at hc
      have hma : isPySpace (titleMap false a) = false := by rw [titleMap_pySpace]; exact hha
      rw [show pyCollapse (titleMap false a :: titleAux a.isAlpha as) =
          titleMap false a :: collapseAux false (titleAux a.isAlpha as) from
        collapseAux_cons_not_ws false _ _ hma] at hc
      rw [List.head?_cons] at hc
      rw [← Option.some.inj hc]
      exact hma
  · intro c hc
    cases hs : pyStrip l with
    | nil =>
      rw [hs] at hc
      simp [pyTitle, titleAux, pyCollapse, collapseAux] at hc
    | cons a as =>
      obtain ⟨c0, c2, h1, h2, h3⟩ := titleAux_getLast a as false
      have h0 : isPySpace c0 = false := pyStrip_getLast l c0 (by rw [hs]; exact h1)
      have h2ws : isPySpace c2 = false := by rw [h3]; exact h0
      have hfinal : (pyCollapse (pyTitle (a :: as))).getLast? = some c2 :=
        collapseAux_getLast (titleAux false (a :: as)) false c2 h2 h2ws
      rw [hs] at hc
      rw [hc] at hfinal
      rw [Option.some.inj hfinal]
      exact h2ws

theorem stringMk_data (l : List Char) : (String.mk l).data = l := rfl

/-- C8: for every input string, the source's normalization (trim, then
title-case, then collapse each whitespace run) coincides with the
composition the specification words: trim leading and trailing whitespace,
collapse each run of whitespace to a single space, then title-case with
the library's own word-boundary behavior (a cased character is upper-cased
exactly when the previous character is not cased). -/
theorem c8_normalize_composition (name : String) :
    normalize_patient_name name = normalizeSpecOrder name := by
  by_cases h : name = ""
  · subst h; rfl
  · rw [normalize_patient_name, if_neg h, normalizeSpecOrder]
    exact congrArg String.mk (collapseAux_titleAux (pyStrip name.data) false false (by simp))

/-- C9: name normalization is idempotent. -/
theorem c9_normalize_idempotent (s : String) :
    normalize_patient_name (normalize_patient_name s) = normalize_patient_name s := by
  by_cases h : s = ""
  · subst h; rfl
  · have houter : normalize_patient_name s = String.mk (pyCollapse (pyTitle (pyStrip s.data))) := by
      rw [normalize_patient_name, if_neg h]
    rw [houter]
    set t := pyCollapse (pyTitle (pyStrip s.data)) with ht
    by_cases h2 : String.mk t = ""
    · rw [normalize_patient_name, if_pos h2, h2]
    · rw [normalize_patient_name, if_neg h2]
      show String.mk (pyCollapse (pyTitle (pyStrip t))) = String.mk t
      rw [ht, pyStrip_normalized s.data]
      have hcomm : pyCollapse (pyTitle (pyStrip s.data)) =
          pyTitle (pyCollapse (pyStrip s.data)) :=
        collapseAux_titleAux (pyStrip s.data) false false (by simp)
      have htitle : pyTitle (pyCollapse (pyTitle (pyStrip s.data))) =
          pyCollapse (pyTitle (pyStrip s.data)) := by
        rw [hcomm]
        exact titleAux_titleAux (pyCollapse (pyStrip s.data)) false
      rw [htitle]
      rw [show pyCollapse (pyCollapse (pyTitle (pyStrip s.data))) =
          pyCollapse (pyTitle (pyStrip s.data)) from
        collapseAux_collapseAux (pyTitle (pyStrip s.data)) false]

/-! ## Association-list lemmas -/

theorem alistGet_set_self {β : Type} (k : String) (v : β) (l : List (String × β)) :
    alistGet k (alistSet k v l) = some v := by
  induction l with
  | nil => simp [alistSet, alistGet]
  | cons kv rest ih =>
    by_cases h : kv.1 = k
    · simp [alistSet, alistGet, h]
    · simp [alistSet, alistGet, h, ih]

theorem alistGet_set_ne {β : Type} (k k2 : String) (v : β) (l : List (String × β))
    (h : k2 ≠ k) : alistGet k (alistSet k2 v l) = alistGet k l := by
  induction l with
  | nil => simp [alistSet, alistGet, h]
  | cons kv rest ih =>
    by_cases h2 : kv.1 = k2
    · simp [alistSet, alistGet, h2, h]
    · simp [alistSet, alistGet, h2, ih]

theorem alistUpsert_cons_eq {β : Type} (k : String) (d : β) (f : β → β) (k2 : String)
    (v : β) (rest : List (String × β)) (h : k2 = k) :
    alistUpsert k d f ((k2, v) :: rest) = (k2, f v) :: rest := by
  simp [alistUpsert, h]

theorem alistUpsert_cons_ne {β : Type} (k : String) (d : β) (f : β → β) (k2 : String)
    (v : β) (rest : List (String × β)) (h : ¬(k2 = k)) :
    alistUpsert k d f ((k2, v) :: rest) = (k2, v) :: alistUpsert k d f rest := by
  simp [alistUpsert, h]

theorem alistUpsert_mem {β : Type} (k : String) (d : β) (f : β → β) (l : List (String × β)) :
    ∀ kv ∈ alistUpsert k d f l,
      kv ∈ l ∨ (kv.1 = k ∧ (kv.2 = f d ∨ ∃ v, (k, v) ∈ l ∧ kv.2 = f v)) := by
  induction l with
  | nil =>
    intro kv hv
    simp [alistUpsert] at hv
    subst hv
    exact Or.inr ⟨rfl, Or.inl rfl⟩
  | cons hd rest ih =>
    obtain ⟨k2, v2⟩ := hd
    intro kv hv
    by_cases h : k2 = k
    · rw [alistUpsert_cons_eq k d f k2 v2 rest h] at hv
      rcases List.mem_cons.mp hv with hv | hv
      · subst hv
        exact Or.inr ⟨h, Or.inr ⟨v2, by rw [← h]; exact ⟨List.mem_cons_self _ _, rfl⟩⟩⟩
      · exact Or.inl (List.mem_cons_of_mem _ hv)
    · rw [alistUpsert_cons_ne k d f k2 v2 rest h] at hv
      rcases List.mem_cons.mp hv with hv | hv
      · exact Or.inl (by rw [hv]; exact List.mem_cons_self _ _)
      · rcases ih kv hv with h2 | ⟨h2, h3⟩
        · exact Or.inl (List.mem_cons_of_mem _ h2)
        · refine Or.inr ⟨h2, ?_⟩
          rcases h3 with h3 | ⟨v, hv2, h3⟩
          · exact Or.inl h3
          · exact Or.inr ⟨v, List.mem_cons_of_mem _ hv2, h3⟩

theorem alistUpsert_keys {β : Type} (k : String) (d : β) (f : β → β) (l : List (String × β)) :
    ∀ kv ∈ alistUpsert k d f l, kv.1 = k ∨ kv.1 ∈ l.map Prod.fst := by
  intro kv hv
  rcases alistUpsert_mem k d f l kv hv with h | ⟨h, _⟩
  · exact Or.inr (List.mem_map_of_mem _ h)
  · exact Or.inl h

theorem alistUpsert_pairwise {β : Type} (k : String) (d : β) (f : β → β)
    (l : List (String × β)) (h : l.Pairwise (fun a b => a.1 ≠ b.1)) :
    (alistUpsert k d f l).Pairwise (fun a b => a.1 ≠ b.1) := by
  induction l with
  | nil => simp [alistUpsert]
  | cons hd rest ih =>
    obtain ⟨k2, v2⟩ := hd
    rcases List.pairwise_cons.mp h with ⟨h1, h2⟩
    by_cases hk : k2 = k
    · rw [alistUpsert_cons_eq k d f k2 v2 rest hk]
      exact List.pairwise_cons.mpr ⟨h1, h2⟩
    · rw [alistUpsert_cons_ne k d f k2 v2 rest hk]
      refine List.pairwise_cons.mpr ⟨?_, ih h2⟩
      intro b hb
      rcases alistUpsert_keys k d f rest b hb with hb2 | hb2
      · rw [hb2]; exact hk
      · rcases List.mem_map.mp hb2 with ⟨kv, hkv, hkv2⟩
        rw [← hkv2]
        exact h1 kv hkv

theorem alistUpsert_sum {β : Type} (m : β → Nat) (k : String) (d : β) (f : β → β)
    (l : List (String × β)) (hf : ∀ v, m (f v) = m v + 1) (hd : m d = 0) :
    ((alistUpsert k d f l).map (fun kv => m kv.2)).sum = ((l.map (fun kv => m kv.2)).sum) + 1 := by
  induction l with
  | nil => simp [alistUpsert, hf, hd]
  | cons hd2 rest ih =>
    obtain ⟨k2, v2⟩ := hd2
    by_cases h : k2 = k
    · rw [alistUpsert_cons_eq k d f k2 v2 rest h]
      simp only [List.map_cons, List.sum_cons, hf]
      omega
    · rw [alistUpsert_cons_ne k d f k2 v2 rest h]
      simp only [List.map_cons, List.sum_cons, ih]
      omega

/-! ## Session-count bookkeeping (claims C1 and C7) -/

theorem calendarSessions_addSession (pname : String) (s : SessionRecord) (cd : CalendarData) :
    calendarSessions (addSessionToCalendar pname s cd) = calendarSessions cd + 1 := by
  unfold addSessionToCalendar calendarSessions
  exact alistUpsert_sum (fun p : PatientData => p.total_sessions) _ _ _ _ (fun _ => rfl) rfl

theorem processEvent_totalCount (pd : ProcessedData) (e : RawEvent) :
    totalCount (processEvent pd e) = totalCount pd + (if survives e then 1 else 0) := by
  cases hs : e.summary with
  | none => simp [processEvent, survives, hs]
  | some t =>
    cases hd : eventStartDate e.start with
    | none => simp [processEvent, survives, hs, hd]
    | some d =>
      by_cases hn : (extract_patient_name t).1 = ""
      · simp [processEvent, survives, hs, hd, hn]
      · have hsurv : survives e = true := by simp [survives, hs, hd, hn]
        rw [hsurv]
        simp only [processEvent, hs, hd, if_neg hn, if_pos rfl]
        unfold totalCount
        have hstep := alistUpsert_sum calendarSessions e.calendar_id
          { calendar_name := e.calendar_name, patients := [] }
          (addSessionToCalendar (extract_patient_name t).1
            { date := formatDate d, title := t, is_parent_session := (extract_patient_name t).2 })
          pd (fun v => calendarSessions_addSession _ _ v) rfl
        rw [hstep]
        simp

theorem foldl_totalCount (l : List RawEvent) :
    ∀ pd : ProcessedData,
      totalCount (l.foldl processEvent pd) = totalCount pd + l.countP survives := by
  induction l with
  | nil => intro pd; simp
  | cons e es ih =>
    intro pd
    rw [List.foldl_cons, ih (processEvent pd e), processEvent_totalCount, List.countP_cons]
    by_cases h : survives e = true <;> simp [h] <;> omega

theorem sumTotales_generate (pd : ProcessedData) :
    sumTotales (generate_totales_data pd) = totalCount pd := by
  unfold sumTotales generate_totales_data
  rw [((List.perm_insertionSort (fun a b => totalesLe a b = true) _).map (fun r => r.total)).sum_eq]
  induction pd with
  | nil => rfl
  | cons c rest ih =>
    rw [List.flatMap_cons, List.map_append, List.sum_append, ih]
    unfold totalCount
    rw [List.map_cons, List.sum_cons, List.map_map]
    rfl

/-- C1: for every input event list, the totals of the totals projection
sum to the number of events that survive the structural skips (missing
title, no usable start) and the empty-name skip; every surviving event
contributes exactly one session to exactly one (calendar, patient) group. -/
theorem c1_totals_sum (events : List RawEvent) :
    sumTotales (generate_totales_data (process_events events)) = events.countP survives := by
  rw [sumTotales_generate]
  unfold process_events
  rw [foldl_totalCount]
  simp [totalCount]

theorem processEvent_not_survives (pd : ProcessedData) (e : RawEvent)
    (h : survives e = false) : processEvent pd e = pd := by
  unfold processEvent
  unfold survives at h
  cases hs : e.summary with
  | none => rfl
  | some t =>
    rw [hs] at h
    cases hd : eventStartDate e.start with
    | none => rfl
    | some d =>
      rw [hd] at h
      simp only [decide_eq_false_iff_not, Decidable.not_not] at h
      simp [h]

/-- C7: an event contributes a session to the grouped structure iff it has
a title field, a usable start (`dateTime` or `date`), and a non-empty
extracted patient name; an event failing any of these is silently dropped,
leaving the grouped structure exactly as if the event were removed from
the input, while a surviving event adds exactly one session. -/
theorem c7_skip_or_contribute (l1 l2 : List RawEvent) (e : RawEvent) :
    (survives e = false → process_events (l1 ++ e :: l2) = process_events (l1 ++ l2)) ∧
    (survives e = true →
      totalCount (process_events (l1 ++ e :: l2)) =
        totalCount (process_events (l1 ++ l2)) + 1) := by
  constructor
  · intro h
    unfold process_events
    rw [List.foldl_append, List.foldl_append, List.foldl_cons,
      processEvent_not_survives _ e h]
  · intro h
    unfold process_events
    rw [List.foldl_append, List.foldl_append, List.foldl_cons,
      foldl_totalCount, foldl_totalCount, processEvent_totalCount, h]
    simp only [if_pos]
    omega

/-- Witness for C7 at concrete inputs: a titleless event is dropped
without affecting the structure, and a surviving event adds one session. -/
theorem c7_skip_or_contribute_witness :
    (process_events
        [{ summary := some "Ana", calendar_id := "c1", calendar_name := "Clinic",
           start := ⟨some ⟨2024, 1, 5⟩, none⟩ },
         { summary := none, calendar_id := "c1", calendar_name := "Clinic",
           start := ⟨some ⟨2024, 1, 6⟩, none⟩ }] =
      process_events
        [{ summary := some "Ana", calendar_id := "c1", calendar_name := "Clinic",
           start := ⟨some ⟨2024, 1, 5⟩, none⟩ }]) ∧
    (totalCount (process_events
        [{ summary := some "Ana", calendar_id := "c1", calendar_name := "Clinic",
           start := ⟨some ⟨2024, 1, 5⟩, none⟩ },
         { summary := some "Bea", calendar_id := "c1", calendar_name := "Clinic",
           start := ⟨some ⟨2024, 1, 6⟩, none⟩ }]) =
      totalCount (process_events
        [{ summary := some "Ana", calendar_id := "c1", calendar_name := "Clinic",
           start := ⟨some ⟨2024, 1, 5⟩, none⟩ }]) + 1) := by
  constructor
  · exact (c7_skip_or_contribute
      [{ summary := some "Ana", calendar_id := "c1", calendar_name := "Clinic",
         start := ⟨some ⟨2024, 1, 5⟩, none⟩ }] []
      { summary := none, calendar_id := "c1", calendar_name := "Clinic",
        start := ⟨some ⟨2024, 1, 6⟩, none⟩ }).1 (by decide)
  · exact (c7_skip_or_contribute
      [{ summary := some "Ana", calendar_id := "c1", calendar_name := "Clinic",
         start := ⟨some ⟨2024, 1, 5⟩, none⟩ }] []
      { summary := some "Bea", calendar_id := "c1", calendar_name := "Clinic",
        start := ⟨some ⟨2024, 1, 6⟩, none⟩ }).2 (by decide)

/-! ## Title-cased invariant of extracted names -/

theorem titleCased_cons (p : Bool) (c : Char) (cs : List Char) :
    isTitleCasedFrom p (c :: cs) =
      ((if c.isAlpha && !p then c.isUpper else true) && isTitleCasedFrom c.isAlpha cs) := rfl

theorem titleCased_titleAux (l : List Char) :
    ∀ p : Bool, isTitleCasedFrom p (titleAux p l) = true := by
  induction l with
  | nil => intro p; rfl
  | cons c cs ih =>
    intro p
    rw [titleAux_cons, titleCased_cons, titleMap_isAlpha]
    apply Bool.and_eq_true_iff.mpr
    refine ⟨?_, ih c.isAlpha⟩
    cases ha : c.isAlpha
    · rw [titleMap_of_not_alpha p c ha]
      simp
    · cases p
      · rw [titleMap_false_eq c ha]
        simp [char_toUpper_isUpper c ha]
      · rw [titleMap_true_eq c ha]
        simp
  
theorem titleCased_collapseAux (l : List Char) :
    ∀ (p b : Bool), (b = true → p = false) → isTitleCasedFrom p l = true →
      isTitleCasedFrom p (collapseAux b l) = true := by
  induction l with
  | nil => intro p b _ _; cases b <;> rfl
  | cons c cs ih =>
    intro p b hbp hl
    rw [titleCased_cons] at hl
    rcases Bool.and_eq_true_iff.mp hl with ⟨hcond, hrest⟩
    by_cases hws : isPySpace c = true
    · have ha : c.isAlpha = false := by
        cases hA : c.isAlpha
        · rfl
        · rw [isAlpha_not_pySpace c hA] at hws; exact absurd hws (by simp)
      rw [ha] at hrest
      cases b
      · rw [collapseAux_cons_ws_false c cs hws, titleCased_cons]
        apply Bool.and_eq_true_iff.mpr
        refine ⟨by simp, ?_⟩
        rw [show (' ').isAlpha = false from rfl]
        exact ih false true (fun _ => rfl) hrest
      · have hp : p = false := hbp rfl
        subst hp
        rw [collapseAux_cons_ws_true c cs hws]
        exact ih false true (fun _ => rfl) hrest
    · have hwsf := bool_eq_false hws
      rw [collapseAux_cons_not_ws b c cs hwsf, titleCased_cons]
      apply Bool.and_eq_true_iff.mpr
      exact ⟨hcond, ih c.isAlpha false (by simp) hrest⟩

theorem titleCased_normalize (s : String) :
    isTitleCasedFrom false (normalize_patient_name s).data = true := by
  by_cases h : s = ""
  · subst h; rfl
  · rw [normalize_patient_name, if_neg h, stringMk_data]
    exact titleCased_collapseAux (pyTitle (pyStrip s.data)) false false (by simp)
      (titleCased_titleAux (pyStrip s.data) false)

theorem titleCased_extract (t : String) :
    isTitleCasedFrom false (extract_patient_name t).1.data = true := by
  by_cases h : t = ""
  · subst h; rfl
  · cases hm : reMatch padresPattern t.data with
    | none =>
      rw [show extract_patient_name t = (normalize_patient_name t, false) by
        simp [extract_patient_name, h, hm]]
      exact titleCased_normalize t
    | some g =>
      cases g with
      | none =>
        rw [show extract_patient_name t = (normalize_patient_name t, false) by
          simp [extract_patient_name, h, hm]]
        exact titleCased_normalize t
      | some cap =>
        rw [show extract_patient_name t = (normalize_patient_name (String.mk cap), true) by
          simp [extract_patient_name, h, hm]]
        exact titleCased_normalize (String.mk cap)

/-! ## Structural invariant of the grouped structure -/

theorem processEvent_survive_eq (pd : ProcessedData) (e : RawEvent) (t : String) (d : PyDate)
    (h1 : e.summary = some t) (h2 : eventStartDate e.start = some d)
    (h3 : ¬((extract_patient_name t).1 = "")) :
    processEvent pd e =
      alistUpsert e.calendar_id { calendar_name := e.calendar_name, patients := [] }
        (addSessionToCalendar (extract_patient_name t).1
          { date := formatDate d, title := t, is_parent_session := (extract_patient_name t).2 })
        pd := by
  simp [processEvent, h1, h2, h3]

theorem processEvent_invariant (pd : ProcessedData) (e : RawEvent)
    (hkeys : pd.Pairwise (fun a b => a.1 ≠ b.1))
    (hval : ∀ kc ∈ pd,
      kc.2.patients.Pairwise (fun a b => a.1 ≠ b.1) ∧
      ∀ kp ∈ kc.2.patients, kp.1 ≠ "" ∧ isTitleCasedFrom false kp.1.data = true) :
    (processEvent pd e).Pairwise (fun a b => a.1 ≠ b.1) ∧
    ∀ kc ∈ processEvent pd e,
      kc.2.patients.Pairwise (fun a b => a.1 ≠ b.1) ∧
      ∀ kp ∈ kc.2.patients, kp.1 ≠ "" ∧ isTitleCasedFrom false kp.1.data = true := by
  cases hs : e.summary with
  | none => rw [show processEvent pd e = pd by simp [processEvent, hs]]; exact ⟨hkeys, hval⟩
  | some t =>
    cases hd : eventStartDate e.start with
    | none =>
      rw [show processEvent pd e = pd by simp [processEvent, hs, hd]]
      exact ⟨hkeys, hval⟩
    | some d =>
      by_cases hn : (extract_patient_name t).1 = ""
      · rw [show processEvent pd e = pd by simp [processEvent, hs, hd, hn]]
        exact ⟨hkeys, hval⟩
      · rw [processEvent_survive_eq pd e t d hs hd hn]
        have hgood : (extract_patient_name t).1 ≠ "" ∧
            isTitleCasedFrom false (extract_patient_name t).1.data = true :=
          ⟨hn, titleCased_extract t⟩
        constructor
        · exact alistUpsert_pairwise _ _ _ pd hkeys
        · intro kc hkc
          rcases alistUpsert_mem _ _ _ pd kc hkc with hmem | ⟨_, hv⟩
          · exact hval kc hmem
          · have hpat : ∀ (v : CalendarData),
                (v.patients.Pairwise (fun a b => a.1 ≠ b.1) ∧
                  ∀ kp ∈ v.patients, kp.1 ≠ "" ∧ isTitleCasedFrom false kp.1.data = true) →
                ((addSessionToCalendar (extract_patient_name t).1
                    { date := formatDate d, title := t,
                      is_parent_session := (extract_patient_name t).2 } v).patients.Pairwise
                  (fun a b => a.1 ≠ b.1) ∧
                  ∀ kp ∈ (addSessionToCalendar (extract_patient_name t).1
                    { date := formatDate d, title := t,
                      is_parent_session := (extract_patient_name t).2 } v).patients,
                    kp.1 ≠ "" ∧ isTitleCasedFrom false kp.1.data = true) := by
              intro v hv2
              constructor
              · exact alistUpsert_pairwise _ _ _ v.patients hv2.1
              · intro kp hkp
                rcases alistUpsert_mem _ _ _ v.patients kp hkp with hmem2 | ⟨hk2, _⟩
                · exact hv2.2 kp hmem2
                · rw [hk2]; exact hgood
            rcases hv with hv | ⟨v, hvmem, hv⟩
            · rw [hv]
              exact hpat { calendar_name := e.calendar_name, patients := [] }
                ⟨List.Pairwise.nil, by intro kp hkp; simp at hkp⟩
            · rw [hv]
              exact hpat v (hval (e.calendar_id, v) hvmem)

theorem process_events_invariant (events : List RawEvent) :
    (process_events events).Pairwise (fun a b => a.1 ≠ b.1) ∧
    ∀ kc ∈ process_events events,
      kc.2.patients.Pairwise (fun a b => a.1 ≠ b.1) ∧
      ∀ kp ∈ kc.2.patients, kp.1 ≠ "" ∧ isTitleCasedFrom false kp.1.data = true := by
  unfold process_events
  have hgen : ∀ (l : List RawEvent) (pd : ProcessedData),
      pd.Pairwise (fun a b => a.1 ≠ b.1) →
      (∀ kc ∈ pd,
        kc.2.patients.Pairwise (fun a b => a.1 ≠ b.1) ∧
        ∀ kp ∈ kc.2.patients, kp.1 ≠ "" ∧ isTitleCasedFrom false kp.1.data = true) →
      (l.foldl processEvent pd).Pairwise (fun a b => a.1 ≠ b.1) ∧
      ∀ kc ∈ l.foldl processEvent pd,
        kc.2.patients.Pairwise (fun a b => a.1 ≠ b.1) ∧
        ∀ kp ∈ kc.2.patients, kp.1 ≠ "" ∧ isTitleCasedFrom false kp.1.data = true := by
    intro l
    induction l with
    | nil => intro pd h1 h2; exact ⟨h1, h2⟩
    | cons e es ih =>
      intro pd h1 h2
      rw [List.foldl_cons]
      obtain ⟨h3, h4⟩ := processEvent_invariant pd e h1 h2
      exact ih (processEvent pd e) h3 h4
  exact hgen events [] List.Pairwise.nil (by intro kc hkc; simp at hkc)

/-! ## The lexicographic string comparison agrees with the standard order -/

theorem listLtB_cons (a b : Char) (as bs : List Char) :
    listLtB (a :: as) (b :: bs) =
      if a < b then true else if b < a then false else listLtB as bs := rfl

theorem listLtB_iff (l : List Char) : ∀ m : List Char, listLtB l m = true ↔ l < m := by
  induction l with
  | nil =>
    intro m
    cases m with
    | nil =>
      constructor
      · intro h; exact absurd h (by simp [listLtB])
      · intro h; exact absurd h (by intro h2; nomatch h2)
    | cons b bs =>
      constructor
      · intro _; exact List.Lex.nil
      · intro _; rfl
  | cons a as ih =>
    intro m
    cases m with
    | nil =>
      constructor
      · intro h; exact absurd h (by simp [listLtB])
      · intro h; exact absurd h (by intro h2; nomatch h2)
    | cons b bs =>
      rw [listLtB_cons]
      by_cases h1 : a < b
      · rw [if_pos h1]
        exact ⟨fun _ => List.Lex.rel h1, fun _ => rfl⟩
      · rw [if_neg h1]
        by_cases h2 : b < a
        · rw [if_pos h2]
          constructor
          · intro h; exact absurd h (by simp)
          · intro h
            cases h with
            | cons h => exact absurd h2 (lt_irrefl a)
            | rel h => exact absurd h h1
        · rw [if_neg h2]
          have heq : a = b := le_antisymm (not_lt.mp h2) (not_lt.mp h1)
          subst heq
          constructor
          · intro h; exact List.Lex.cons ((ih bs).mp h)
          · intro h
            cases h with
            | cons h => exact (ih bs).mpr h
            | rel h => exact absurd h h1

theorem strLtB_iff_lt (a b : String) : strLtB a b = true ↔ a < b := by
  rw [String.lt_iff_toList_lt]
  exact listLtB_iff a.data b.data

theorem strLeB_iff_le (a b : String) : strLeB a b = true ↔ a ≤ b := by
  have h1 : strLeB a b = true ↔ ¬(strLtB b a = true) := by
    unfold strLeB; cases strLtB b a <;> simp
  rw [h1, strLtB_iff_lt]
  exact not_lt

/-! ## Transitivity and totality of the sort comparisons -/

theorem totalesLe_trans (a b c : TotalsRow) (h1 : totalesLe a b = true)
    (h2 : totalesLe b c = true) : totalesLe a c = true := by
  simp only [totalesLe, Bool.or_eq_true, Bool.and_eq_true, decide_eq_true_eq,
    strLtB_iff_lt, strLeB_iff_le] at h1 h2 ⊢
  rcases h1 with h1 | ⟨h1e, h1n⟩ <;> rcases h2 with h2 | ⟨h2e, h2n⟩
  · exact Or.inl (lt_trans h1 h2)
  · exact Or.inl (h2e ▸ h1)
  · exact Or.inl (h1e ▸ h2)
  · exact Or.inr ⟨h1e.trans h2e, le_trans h1n h2n⟩

theorem totalesLe_total (a b : TotalsRow) : totalesLe a b = true ∨ totalesLe b a = true := by
  simp only [totalesLe, Bool.or_eq_true, Bool.and_eq_true, decide_eq_true_eq,
    strLtB_iff_lt, strLeB_iff_le]
  rcases lt_trichotomy a.calendario b.calendario with h | h | h
  · exact Or.inl (Or.inl h)
  · rcases le_total a.nombre b.nombre with hn | hn
    · exact Or.inl (Or.inr ⟨h, hn⟩)
    · exact Or.inr (Or.inr ⟨h.symm, hn⟩)
  · exact Or.inr (Or.inl h)

theorem columnLe_trans (a b c : PatientColumn) (h1 : columnLe a b = true)
    (h2 : columnLe b c = true) : columnLe a c = true := by
  simp only [columnLe, strLeB_iff_le] at h1 h2 ⊢
  exact le_trans h1 h2

theorem columnLe_total (a b : PatientColumn) : columnLe a b = true ∨ columnLe b a = true := by
  simp only [columnLe, strLeB_iff_le]
  exact le_total a.patient_name b.patient_name

theorem chronLe_trans (a b c : String) (h1 : chronLe a b = true)
    (h2 : chronLe b c = true) : chronLe a c = true := by
  simp only [chronLe, tripleLe, Bool.or_eq_true, Bool.and_eq_true, decide_eq_true_eq] at h1 h2 ⊢
  omega

theorem chronLe_total (a b : String) : chronLe a b = true ∨ chronLe b a = true := by
  simp only [chronLe, tripleLe, Bool.or_eq_true, Bool.and_eq_true, decide_eq_true_eq]
  omega

/-! ## Distinctness of the totals rows (claim C3) -/

theorem rows_pairwise (pd : ProcessedData)
    (hinj : pd.Pairwise (fun a b => a.2.calendar_name ≠ b.2.calendar_name))
    (hpat : ∀ kc ∈ pd, kc.2.patients.Pairwise (fun a b => a.1 ≠ b.1)) :
    (pd.flatMap (fun c =>
      c.2.patients.map (fun p =>
        { calendario := c.2.calendar_name, nombre := p.1,
          total := p.2.total_sessions : TotalsRow }))).Pairwise
      (fun a b => (a.calendario, a.nombre) ≠ (b.calendario, b.nombre)) := by
  induction pd with
  | nil => exact List.Pairwise.nil
  | cons c rest ih =>
    rw [List.flatMap_cons, List.pairwise_append]
    rcases List.pairwise_cons.mp hinj with ⟨hc, hinj2⟩
    refine ⟨?_, ih hinj2 (fun kc hkc => hpat kc (List.mem_cons_of_mem _ hkc)), ?_⟩
    · refine List.Pairwise.map _ ?_ (hpat c (List.mem_cons_self _ _))
      intro a b hab he
      apply hab
      simpa using congrArg Prod.snd he
    · intro a ha b hb
      rcases List.mem_map.mp ha with ⟨pa, _, hea⟩
      rcases List.mem_flatMap.mp hb with ⟨c2, hc2, hb2⟩
      rcases List.mem_map.mp hb2 with ⟨pb, _, heb⟩
      intro he
      apply hc c2 hc2
      have h1 := congrArg Prod.fst he
      rw [← hea, ← heb] at h1
      exact h1

/-- C3: the totals projection is sorted ascending by the (calendar display
name, patient name) pair under lexicographic text comparison.  Amended:
the claimed pairwise distinctness of the pairs holds provided distinct
calendar identifiers carry distinct display names; when two identifiers
share a display name the projection contains tied rows (see the
counterexample), so distinctness is conditional and the sort order is
non-strict. -/
theorem c3_sorted_and_distinct (events : List RawEvent) :
    (generate_totales_data (process_events events)).Pairwise
      (fun a b => totalesLe a b = true) ∧
    ((process_events events).Pairwise (fun a b => a.2.calendar_name ≠ b.2.calendar_name) →
      (generate_totales_data (process_events events)).Pairwise
        (fun a b => (a.calendario, a.nombre) ≠ (b.calendario, b.nombre))) := by
  constructor
  · unfold generate_totales_data
    haveI : IsTrans TotalsRow (fun a b => totalesLe a b = true) :=
      ⟨fun a b c => totalesLe_trans a b c⟩
    haveI : IsTotal TotalsRow (fun a b => totalesLe a b = true) :=
      ⟨fun a b => totalesLe_total a b⟩
    exact List.sorted_insertionSort _ _
  · intro hinj
    unfold generate_totales_data
    rw [List.Perm.pairwise_iff (fun h he => h he.symm)
      (List.perm_insertionSort (fun a b => totalesLe a b = true) _)]
    exact rows_pairwise _ hinj (fun kc hkc => ((process_events_invariant events).2 kc hkc).1)

/-- Witness for C3 at a concrete input with distinct display names. -/
theorem c3_sorted_and_distinct_witness :
((generate_totales_data (process_events
        [{ summary := some "Juan", calendar_id := "c1", calendar_name := "Clinic",
           start := ⟨some ⟨2024, 1, 5⟩, none⟩ },
         { summary := some "Ana", calendar_id := "c2", calendar_name := "Annex",
           start := ⟨some ⟨2024, 1, 6⟩, none⟩ }])).Pairwise
      (fun a b => totalesLe a b = true)) ∧
    ((generate_totales_data (process_events
        [{ summary := some "Juan", calendar_id := "c1", calendar_name := "Clinic",
           start := ⟨some ⟨2024, 1, 5⟩, none⟩ },
         { summary := some "Ana", calendar_id := "c2", calendar_name := "Annex",
           start := ⟨some ⟨2024, 1, 6⟩, none⟩ }])).Pairwise
      (fun a b => (a.calendario, a.nombre) ≠ (b.calendario, b.nombre))) :=
  ⟨(c3_sorted_and_distinct
      [{ summary := some "Juan", calendar_id := "c1", calendar_name := "Clinic",
         start := ⟨some ⟨2024, 1, 5⟩, none⟩ },
       { summary := some "Ana", calendar_id := "c2", calendar_name := "Annex",
         start := ⟨some ⟨2024, 1, 6⟩, none⟩ }]).1,
   (c3_sorted_and_distinct
      [{ summary := some "Juan", calendar_id := "c1", calendar_name := "Clinic",
         start := ⟨some ⟨2024, 1, 5⟩, none⟩ },
       { summary := some "Ana", calendar_id := "c2", calendar_name := "Annex",
         start := ⟨some ⟨2024, 1, 6⟩, none⟩ }]).2 (by decide)⟩

/-- C3 counterexample: two events on distinct calendar identifiers that
share the display name `Clinic` and the same patient title produce two
totals rows with identical (calendar, patient) pairs — the claim's
unconditional pairwise distinctness is false. -/
theorem c3_counterexample :
    generate_totales_data (process_events
      [{ summary := some "Juan", calendar_id := "c1", calendar_name := "Clinic",
         start := ⟨some ⟨2024, 1, 5⟩, none⟩ },
       { summary := some "Juan", calendar_id := "c2", calendar_name := "Clinic",
         start := ⟨some ⟨2024, 1, 6⟩, none⟩ }]) =
      [{ calendario := "Clinic", nombre := "Juan", total := 1 },
       { calendario := "Clinic", nombre := "Juan", total := 1 }] ∧
    ¬ (generate_totales_data (process_events
      [{ summary := some "Juan", calendar_id := "c1", calendar_name := "Clinic",
         start := ⟨some ⟨2024, 1, 5⟩, none⟩ },
       { summary := some "Juan", calendar_id := "c2", calendar_name := "Clinic",
         start := ⟨some ⟨2024, 1, 6⟩, none⟩ }])).Pairwise
        (fun a b => (a.calendario, a.nombre) ≠ (b.calendario, b.nombre)) := by
  constructor
  · decide
  · decide

/-! ## Detail projection lookup (claim C4) -/

theorem foldl_set_get_of_not_mem (pd : ProcessedData) :
    ∀ (acc : List (String × List PatientColumn)) (k : String),
      (∀ kc ∈ pd, kc.2.calendar_name ≠ k) →
      alistGet k
        (pd.foldl (fun a c => alistSet c.2.calendar_name (buildCalendarColumns c.2.patients) a)
          acc) = alistGet k acc := by
  induction pd with
  | nil => intro acc k _; rfl
  | cons c rest ih =>
    intro acc k h
    rw [List.foldl_cons]
    rw [ih _ k (fun kc hkc => h kc (List.mem_cons_of_mem _ hkc))]
    exact alistGet_set_ne _ _ _ _ (h c (List.mem_cons_self _ _))

theorem foldl_set_get (pd : ProcessedData) :
    ∀ (acc : List (String × List PatientColumn)),
      pd.Pairwise (fun a b => a.2.calendar_name ≠ b.2.calendar_name) →
      ∀ kc ∈ pd,
        alistGet kc.2.calendar_name
          (pd.foldl (fun a c => alistSet c.2.calendar_name (buildCalendarColumns c.2.patients) a)
            acc) = some (buildCalendarColumns kc.2.patients) := by
  induction pd with
  | nil => intro acc _ kc hkc; simp at hkc
  | cons c rest ih =>
    intro acc hinj kc hkc
    rcases List.pairwise_cons.mp hinj with ⟨hc, hinj2⟩
    rw [List.foldl_cons]
    rcases List.mem_cons.mp hkc with he | hm
    · subst he
      rw [foldl_set_get_of_not_mem rest _ _ (fun b hb => (hc b hb).symm)]
      exact alistGet_set_self _ _ acc
    · exact ih _ hinj2 kc hm

/-- C4 (amended): the detail projection is keyed by calendar *display
name*, so it contains every CalendarGroup's column listing provided
distinct calendar identifiers carry distinct display names; when two
identifiers share a display name, the later calendar's assignment
replaces the earlier one's (see the counterexample), so the claimed
"no calendar's data is omitted or overwritten" is conditional. -/
theorem c4_detalle_complete (events : List RawEvent)
    (hinj : (process_events events).Pairwise
      (fun a b => a.2.calendar_name ≠ b.2.calendar_name)) :
    ∀ kc ∈ process_events events,
      alistGet kc.2.calendar_name (generate_detalle_data (process_events events)) =
        some (buildCalendarColumns kc.2.patients) := by
  intro kc hkc
  unfold generate_detalle_data
  exact foldl_set_get (process_events events) [] hinj kc hkc

/-- Witness for C4 at a concrete input with distinct display names. -/
theorem c4_detalle_complete_witness :
    alistGet "Clinic" (generate_detalle_data (process_events
      [sampleEvent (some "Ana") "c1" "Clinic" ⟨2024, 1, 4⟩,
       sampleEvent (some "Bea") "c2" "Annex" ⟨2024, 1, 5⟩])) =
      some (buildCalendarColumns [("Ana", ⟨1, [⟨"04/01/2024", "Ana", false⟩]⟩)]) :=
  c4_detalle_complete
    [sampleEvent (some "Ana") "c1" "Clinic" ⟨2024, 1, 4⟩,
     sampleEvent (some "Bea") "c2" "Annex" ⟨2024, 1, 5⟩] (by decide)
    ("c1", ⟨"Clinic", [("Ana", ⟨1, [⟨"04/01/2024", "Ana", false⟩]⟩)]⟩) (by decide)

/-- C4 counterexample: two calendars with distinct identifiers but the
same display name `Clinic`.  The grouped structure holds Ana's calendar
`c1` with a non-empty column listing, yet no value of the detail
projection contains any column for Ana — the first calendar's data is
overwritten, refuting the unconditional claim. -/
theorem c4_counterexample :
    alistGet "c1" (process_events
      [sampleEvent (some "Ana") "c1" "Clinic" ⟨2024, 1, 4⟩,
       sampleEvent (some "Bea") "c2" "Clinic" ⟨2024, 1, 5⟩]) =
      some ⟨"Clinic", [("Ana", ⟨1, [⟨"04/01/2024", "Ana", false⟩]⟩)]⟩ ∧
    buildCalendarColumns [("Ana", ⟨1, [⟨"04/01/2024", "Ana", false⟩]⟩)] ≠ [] ∧
    (∀ kv ∈ generate_detalle_data (process_events
      [sampleEvent (some "Ana") "c1" "Clinic" ⟨2024, 1, 4⟩,
       sampleEvent (some "Bea") "c2" "Clinic" ⟨2024, 1, 5⟩]),
      ∀ col ∈ kv.2, col.patient_name ≠ "Ana") := by
  refine ⟨by decide, by decide, by decide⟩

/-! ## Per-patient columns (claim C5) -/

theorem sortDates_sorted (dates : List String) :
    (sortDates dates).Pairwise (fun a b => chronLe a b = true) := by
  unfold sortDates
  haveI : IsTrans String (fun a b => chronLe a b = true) := ⟨fun a b c => chronLe_trans a b c⟩
  haveI : IsTotal String (fun a b => chronLe a b = true) := ⟨fun a b => chronLe_total a b⟩
  exact List.sorted_insertionSort _ _

theorem sortDates_perm (dates : List String) : (sortDates dates).Perm dates :=
  List.perm_insertionSort _ _

theorem padres_label_ne (n : String) : "Padres de " ++ n ≠ n := by
  intro h
  have h2 := congrArg String.length h
  rw [String.length_append] at h2
  have h3 : ("Padres de ").length = 10 := by decide
  omega

theorem buildPatientColumns_eq (n : String) (pdata : PatientData) :
    buildPatientColumns n pdata =
      (if (pdata.sessions.filter (fun s => !s.is_parent_session)).map (fun s => s.date) = []
       then []
       else [PatientColumn.mk n
         (sortDates ((pdata.sessions.filter (fun s => !s.is_parent_session)).map
           (fun s => s.date)))]) ++
      (if (pdata.sessions.filter (fun s => s.is_parent_session)).map (fun s => s.date) = []
       then []
       else [PatientColumn.mk ("Padres de " ++ n)
         (sortDates ((pdata.sessions.filter (fun s => s.is_parent_session)).map
           (fun s => s.date)))]) := rfl

theorem buildPatientColumns_mem (n : String) (pdata : PatientData) :
    ∀ col ∈ buildPatientColumns n pdata,
      (col = PatientColumn.mk n
          (sortDates ((pdata.sessions.filter (fun s => !s.is_parent_session)).map
            (fun s => s.date))) ∧
        (pdata.sessions.filter (fun s => !s.is_parent_session)).map (fun s => s.date) ≠ []) ∨
      (col = PatientColumn.mk ("Padres de " ++ n)
          (sortDates ((pdata.sessions.filter (fun s => s.is_parent_session)).map
            (fun s => s.date))) ∧
        (pdata.sessions.filter (fun s => s.is_parent_session)).map (fun s => s.date) ≠ []) := by
  intro col hcol
  rw [buildPatientColumns_eq] at hcol
  rcases List.mem_append.mp hcol with h | h
  · by_cases hr : (pdata.sessions.filter (fun s => !s.is_parent_session)).map
        (fun s => s.date) = []
    · rw [if_pos hr] at h; simp at h
    · rw [if_neg hr] at h
      exact Or.inl ⟨List.mem_singleton.mp h, hr⟩
  · by_cases hp : (pdata.sessions.filter (fun s => s.is_parent_session)).map
        (fun s => s.date) = []
    · rw [if_pos hp] at h; simp at h
    · rw [if_neg hp] at h
      exact Or.inr ⟨List.mem_singleton.mp h, hp⟩

/-- C5: within one patient group, the sessions are split by the parent
flag; a column labeled with the patient name and holding the regular
dates in chronological order is emitted iff the regular list is
non-empty; a column labeled `Padres de ` + name holding the parent dates
is emitted iff the parent list is non-empty; at most one column carries
the patient's own label; a patient yields at most two columns; every
emitted column's dates are chronologically non-decreasing; and a sorted
column holds a permutation of its source date list. -/
theorem c5_patient_columns (patient_name : String) (pdata : PatientData) :
    ((pdata.sessions.filter (fun s => !s.is_parent_session)).map (fun s => s.date) ≠ [] →
      PatientColumn.mk patient_name
        (sortDates ((pdata.sessions.filter (fun s => !s.is_parent_session)).map
          (fun s => s.date))) ∈ buildPatientColumns patient_name pdata) ∧
    ((pdata.sessions.filter (fun s => !s.is_parent_session)).map (fun s => s.date) = [] →
      ∀ col ∈ buildPatientColumns patient_name pdata, col.patient_name ≠ patient_name) ∧
    ((pdata.sessions.filter (fun s => s.is_parent_session)).map (fun s => s.date) ≠ [] →
      PatientColumn.mk ("Padres de " ++ patient_name)
        (sortDates ((pdata.sessions.filter (fun s => s.is_parent_session)).map
          (fun s => s.date))) ∈ buildPatientColumns patient_name pdata) ∧
    ((pdata.sessions.filter (fun s => s.is_parent_session)).map (fun s => s.date) = [] →
      ∀ col ∈ buildPatientColumns patient_name pdata,
        col.patient_name ≠ "Padres de " ++ patient_name) ∧
    (buildPatientColumns patient_name pdata).countP
      (fun c => decide (c.patient_name = patient_name)) ≤ 1 ∧
    (buildPatientColumns patient_name pdata).length ≤ 2 ∧
    (∀ col ∈ buildPatientColumns patient_name pdata,
      col.dates.Pairwise (fun a b => chronLe a b = true)) ∧
    (∀ dates : List String, (sortDates dates).Perm dates) := by
  refine ⟨?_, ?_, ?_, ?_, ?_, ?_, ?_, fun dates => sortDates_perm dates⟩
  · intro hr
    rw [buildPatientColumns_eq, if_neg hr]
    exact List.mem_append.mpr (Or.inl (List.mem_singleton.mpr rfl))
  · intro hr col hcol
    rcases buildPatientColumns_mem patient_name pdata col hcol with ⟨_, hne⟩ | ⟨hcol2, _⟩
    · exact absurd hr hne
    · rw [hcol2]
      exact padres_label_ne patient_name
  · intro hp
    rw [buildPatientColumns_eq, if_neg hp]
    exact List.mem_append.mpr (Or.inr (List.mem_singleton.mpr rfl))
  · intro hp col hcol
    rcases buildPatientColumns_mem patient_name pdata col hcol with ⟨hcol2, _⟩ | ⟨_, hne⟩
    · rw [hcol2]
      intro h
      exact padres_label_ne patient_name h.symm
    · exact absurd hp hne
  · rw [buildPatientColumns_eq, List.countP_append]
    have h2 : ∀ l : List String, (if l = [] then ([] : List PatientColumn)
        else [PatientColumn.mk ("Padres de " ++ patient_name) (sortDates l)]).countP
          (fun c => decide (c.patient_name = patient_name)) = 0 := by
      intro l
      split
      · rfl
      · simp [List.countP_cons, decide_eq_false (padres_label_ne patient_name)]
    rw [h2]
    have h1 : ∀ l : List String, (if l = [] then ([] : List PatientColumn)
        else [PatientColumn.mk patient_name (sortDates l)]).countP
          (fun c => decide (c.patient_name = patient_name)) ≤ 1 := by
      intro l
      split
      · exact Nat.zero_le 1
      · simp [List.countP_cons]
    have := h1 ((pdata.sessions.filter (fun s => !s.is_parent_session)).map (fun s => s.date))
    omega
  · rw [buildPatientColumns_eq, List.length_append]
    have h1 : ∀ (l : List String) (c : PatientColumn),
        (if l = [] then ([] : List PatientColumn) else [c]).length ≤ 1 := by
      intro l c
      split
      · exact Nat.zero_le 1
      · exact Nat.le_refl 1
    have ha := h1 ((pdata.sessions.filter (fun s => !s.is_parent_session)).map (fun s => s.date))
      (PatientColumn.mk patient_name
        (sortDates ((pdata.sessions.filter (fun s => !s.is_parent_session)).map
          (fun s => s.date))))
    have hb := h1 ((pdata.sessions.filter (fun s => s.is_parent_session)).map (fun s => s.date))
      (PatientColumn.mk ("Padres de " ++ patient_name)
        (sortDates ((pdata.sessions.filter (fun s => s.is_parent_session)).map
          (fun s => s.date))))
    omega
  · intro col hcol
    rcases buildPatientColumns_mem patient_name pdata col hcol with ⟨hcol2, _⟩ | ⟨hcol2, _⟩ <;>
      rw [hcol2] <;> exact sortDates_sorted _

/-- Witness for C5 at a concrete patient with unsorted regular sessions
and one parent session. -/
theorem c5_patient_columns_witness :
    (PatientColumn.mk "Ana" (sortDates ["20/01/2024", "05/01/2024"]) ∈
      buildPatientColumns "Ana"
        ⟨3, [⟨"20/01/2024", "Ana", false⟩, ⟨"10/01/2024", "Padres de Ana", true⟩,
             ⟨"05/01/2024", "Ana", false⟩]⟩) ∧
    (PatientColumn.mk "Padres de Ana" (sortDates ["10/01/2024"]) ∈
      buildPatientColumns "Ana"
        ⟨3, [⟨"20/01/2024", "Ana", false⟩, ⟨"10/01/2024", "Padres de Ana", true⟩,
             ⟨"05/01/2024", "Ana", false⟩]⟩) :=
  ⟨(c5_patient_columns "Ana"
      ⟨3, [⟨"20/01/2024", "Ana", false⟩, ⟨"10/01/2024", "Padres de Ana", true⟩,
           ⟨"05/01/2024", "Ana", false⟩]⟩).1 (by decide),
   (c5_patient_columns "Ana"
      ⟨3, [⟨"20/01/2024", "Ana", false⟩, ⟨"10/01/2024", "Padres de Ana", true⟩,
           ⟨"05/01/2024", "Ana", false⟩]⟩).2.2.1 (by decide)⟩

/-! ## Label disjointness in the detail projection (claim C10) -/

theorem string_data_inj {a b : String} (h : a.data = b.data) : a = b := by
  cases a
  cases b
  exact congrArg String.mk h

theorem string_append_left_cancel {a b c : String} (h : a ++ b = a ++ c) : b = c := by
  have h2 := congrArg String.data h
  rw [String.data_append, String.data_append] at h2
  exact string_data_inj (List.append_cancel_left h2)

theorem titleCased_append_false (l : List Char) :
    ∀ (m : List Char) (p : Bool), isTitleCasedFrom p l = false →
      isTitleCasedFrom p (l ++ m) = false := by
  induction l with
  | nil => intro m p h; exact absurd h (by simp [isTitleCasedFrom])
  | cons c cs ih =>
    intro m p h
    rw [titleCased_cons] at h
    rw [List.cons_append, titleCased_cons]
    cases hcond : (if c.isAlpha && !p then c.isUpper else true)
    · rw [Bool.false_and]
    · rw [hcond] at h
      rw [Bool.true_and] at h
      rw [ih m c.isAlpha h, Bool.and_false]

theorem titleCased_no_padres (x : String) :
    isTitleCasedFrom false ("Padres de " ++ x).data = false := by
  rw [String.data_append]
  exact titleCased_append_false ("Padres de ").data x.data false (by decide)

theorem labels_ne (n1 n2 : String) (h12 : n1 ≠ n2)
    (hg1 : isTitleCasedFrom false n1.data = true)
    (hg2 : isTitleCasedFrom false n2.data = true) :
    ∀ a b : String, (a = n1 ∨ a = "Padres de " ++ n1) → (b = n2 ∨ b = "Padres de " ++ n2) →
      a ≠ b := by
  rintro a b (rfl | rfl) (rfl | rfl)
  · exact h12
  · intro h
    rw [h] at hg1
    rw [titleCased_no_padres n2] at hg1
    exact Bool.noConfusion hg1
  · intro h
    rw [← h] at hg2
    rw [titleCased_no_padres n1] at hg2
    exact Bool.noConfusion hg2
  · intro h
    exact h12 (string_append_left_cancel h)

theorem buildPatientColumns_label (n : String) (pd : PatientData) (col : PatientColumn)
    (h : col ∈ buildPatientColumns n pd) :
    col.patient_name = n ∨ col.patient_name = "Padres de " ++ n := by
  rcases buildPatientColumns_mem n pd col h with ⟨he, _⟩ | ⟨he, _⟩
  · rw [he]; exact Or.inl rfl
  · rw [he]; exact Or.inr rfl

theorem buildPatientColumns_pairwise (n : String) (pd : PatientData) :
    (buildPatientColumns n pd).Pairwise (fun a b => a.patient_name ≠ b.patient_name) := by
  rw [buildPatientColumns_eq]
  by_cases hr : (pd.sessions.filter (fun s => !s.is_parent_session)).map (fun s => s.date) = [] <;>
    by_cases hp : (pd.sessions.filter (fun s => s.is_parent_session)).map (fun s => s.date) = []
  · rw [if_pos hr, if_pos hp]; exact List.Pairwise.nil
  · rw [if_pos hr, if_neg hp]
    exact List.pairwise_singleton _ _
  · rw [if_neg hr, if_pos hp]
    rw [List.append_nil]
    exact List.pairwise_singleton _ _
  · rw [if_neg hr, if_neg hp]
    refine List.pairwise_cons.mpr ⟨?_, List.pairwise_singleton _ _⟩
    intro b hb
    rw [List.mem_singleton.mp hb]
    intro h
    exact padres_label_ne n h.symm

theorem flatMap_columns_pairwise (patients : List (String × PatientData)) :
    patients.Pairwise (fun a b => a.1 ≠ b.1) →
    (∀ kp ∈ patients, kp.1 ≠ "" ∧ isTitleCasedFrom false kp.1.data = true) →
    (patients.flatMap (fun p => buildPatientColumns p.1 p.2)).Pairwise
      (fun a b => a.patient_name ≠ b.patient_name) := by
  induction patients with
  | nil => intro _ _; exact List.Pairwise.nil
  | cons q rest ih =>
    intro hnd hgood
    rw [List.flatMap_cons, List.pairwise_append]
    rcases List.pairwise_cons.mp hnd with ⟨hq, hnd2⟩
    refine ⟨buildPatientColumns_pairwise q.1 q.2,
      ih hnd2 (fun kp hk => hgood kp (List.mem_cons_of_mem _ hk)), ?_⟩
    intro a ha b hb
    rcases List.mem_flatMap.mp hb with ⟨p2, hp2, hb2⟩
    exact labels_ne q.1 p2.1 (hq p2 hp2) (hgood q (List.mem_cons_self _ _)).2
      (hgood p2 (List.mem_cons_of_mem _ hp2)).2 a.patient_name b.patient_name
      (buildPatientColumns_label q.1 q.2 a ha) (buildPatientColumns_label p2.1 p2.2 b hb2)

theorem buildCalendarColumns_labels (patients : List (String × PatientData))
    (hnd : patients.Pairwise (fun a b => a.1 ≠ b.1))
    (hgood : ∀ kp ∈ patients, kp.1 ≠ "" ∧ isTitleCasedFrom false kp.1.data = true) :
    (buildCalendarColumns patients).Pairwise (fun a b => a.patient_name ≠ b.patient_name) := by
  unfold buildCalendarColumns
  rw [List.Perm.pairwise_iff (fun h he => h he.symm) (List.perm_insertionSort _ _)]
  exact flatMap_columns_pairwise patients hnd hgood

theorem foldl_set_values (pd : ProcessedData) :
    ∀ (acc : List (String × List PatientColumn)) (k : String) (v : List PatientColumn),
      alistGet k
        (pd.foldl (fun a c => alistSet c.2.calendar_name (buildCalendarColumns c.2.patients) a)
          acc) = some v →
      (∃ kc ∈ pd, v = buildCalendarColumns kc.2.patients) ∨ alistGet k acc = some v := by
  induction pd with
  | nil => intro acc k v h; exact Or.inr h
  | cons c rest ih =>
    intro acc k v h
    rw [List.foldl_cons] at h
    rcases ih _ k v h with ⟨kc, hkc, hv⟩ | h2
    · exact Or.inl ⟨kc, List.mem_cons_of_mem _ hkc, hv⟩
    · by_cases he : c.2.calendar_name = k
      · rw [he, alistGet_set_self] at h2
        exact Or.inl ⟨c, List.mem_cons_self _ _, (Option.some.inj h2).symm⟩
      · rw [alistGet_set_ne _ _ _ _ he] at h2
        exact Or.inr h2

theorem generate_detalle_values (pd : ProcessedData) (k : String) (v : List PatientColumn)
    (h : alistGet k (generate_detalle_data pd) = some v) :
    ∃ kc ∈ pd, v = buildCalendarColumns kc.2.patients := by
  unfold generate_detalle_data at h
  rcases foldl_set_values pd [] k v h with h2 | h2
  · exact h2
  · exact absurd h2 (by simp [alistGet])

/-- C10: within each calendar's list in the detail projection, all column
labels are pairwise distinct: regular labels are distinct normalized
patient keys, synthesized `Padres de ` labels are distinct from each
other, and a synthesized label never equals a regular label because a
normalized (title-cased) name cannot contain the lowercase token `de`
after a space. -/
theorem c10_labels_distinct (events : List RawEvent) (cname : String)
    (cols : List PatientColumn)
    (h : alistGet cname (generate_detalle_data (process_events events)) = some cols) :
    cols.Pairwise (fun a b => a.patient_name ≠ b.patient_name) := by
  obtain ⟨kc, hkc, hv⟩ := generate_detalle_values (process_events events) cname cols h
  rw [hv]
  exact buildCalendarColumns_labels kc.2.patients
    ((process_events_invariant events).2 kc hkc).1
    (fun kp hkp => ((process_events_invariant events).2 kc hkc).2 kp hkp)

/-- Witness for C10 at a concrete input mixing a regular and a parent
session of the same patient. -/
theorem c10_labels_distinct_witness :
    ([PatientColumn.mk "Ana" ["04/01/2024"],
      PatientColumn.mk "Padres de Ana" ["05/01/2024"]].Pairwise
      (fun a b => a.patient_name ≠ b.patient_name)) :=
  c10_labels_distinct
    [sampleEvent (some "Ana") "c1" "Clinic" ⟨2024, 1, 4⟩,
     sampleEvent (some "Padres de Ana") "c1" "Clinic" ⟨2024, 1, 5⟩] "Clinic"
    [PatientColumn.mk "Ana" ["04/01/2024"],
     PatientColumn.mk "Padres de Ana" ["05/01/2024"]]
    (by decide)

/-! ## Cell lookup lemmas (claim C6) -/

theorem cellAt_append_of_some (xs ys : List CellWrite) (r c : Nat) (v : String)
    (h : cellAt xs r c = some v) : cellAt (xs ++ ys) r c = some v := by
  unfold cellAt at h ⊢
  rw [List.find?_append]
  cases hf : xs.find? (fun w => w.row == r && w.col == c) with
  | none => rw [hf] at h; exact absurd h (by simp)
  | some w => rw [hf] at h; rw [Option.or]; exact h

theorem cellAt_append_of_none (xs ys : List CellWrite) (r c : Nat)
    (h : cellAt xs r c = none) : cellAt (xs ++ ys) r c = cellAt ys r c := by
  unfold cellAt at h ⊢
  rw [List.find?_append]
  cases hf : xs.find? (fun w => w.row == r && w.col == c) with
  | none => rw [Option.or]
  | some w => rw [hf] at h; exact absurd h (by simp)

theorem cellAt_none_of_all (ws : List CellWrite) (r c : Nat)
    (h : ∀ w ∈ ws, ¬(w.row = r ∧ w.col = c)) : cellAt ws r c = none := by
  unfold cellAt
  rw [show ws.find? (fun w => w.row == r && w.col == c) = none from
    List.find?_eq_none.mpr (by intro w hw; simpa using h w hw)]
  rfl

theorem cellAt_cons_self (w : CellWrite) (ws : List CellWrite) :
    cellAt (w :: ws) w.row w.col = some w.val := by
  unfold cellAt
  rw [List.find?_cons_of_pos _ (by simp)]
  rfl

/-! ## Bounds of the generated writes -/

theorem headerWrites_mem (cols : List PatientColumn) :
    ∀ (c0 : Nat) (w : CellWrite), w ∈ headerWrites c0 cols →
      w.row = 1 ∧ c0 ≤ w.col ∧ w.col < c0 + cols.length := by
  induction cols with
  | nil => intro c0 w h; simp [headerWrites] at h
  | cons c cs ih =>
    intro c0 w h
    rw [headerWrites] at h
    rcases List.mem_cons.mp h with h | h
    · subst h; exact ⟨rfl, Nat.le_refl _, by simp⟩
    · obtain ⟨h1, h2, h3⟩ := ih (c0 + 1) w h
      exact ⟨h1, by omega, by simp only [List.length_cons]; omega⟩

theorem dateWritesFor_mem (ds : List String) :
    ∀ (r0 c : Nat) (w : CellWrite), w ∈ dateWritesFor r0 c ds →
      w.col = c ∧ r0 ≤ w.row ∧ w.row < r0 + ds.length := by
  induction ds with
  | nil => intro r0 c w h; simp [dateWritesFor] at h
  | cons d rest ih =>
    intro r0 c w h
    rw [dateWritesFor] at h
    rcases List.mem_cons.mp h with h | h
    · subst h; exact ⟨rfl, Nat.le_refl _, by simp⟩
    · obtain ⟨h1, h2, h3⟩ := ih (r0 + 1) c w h
      exact ⟨h1, by omega, by simp only [List.length_cons]; omega⟩

theorem dateWrites_mem (cols : List PatientColumn) :
    ∀ (c0 : Nat) (w : CellWrite), w ∈ dateWrites c0 cols →
      3 ≤ w.row ∧ c0 ≤ w.col ∧ w.col < c0 + cols.length := by
  induction cols with
  | nil => intro c0 w h; simp [dateWrites] at h
  | cons c cs ih =>
    intro c0 w h
    rw [dateWrites] at h
    rcases List.mem_append.mp h with h | h
    · obtain ⟨h1, h2, h3⟩ := dateWritesFor_mem c.dates 3 c0 w h
      exact ⟨h2, by omega, by simp only [List.length_cons]; omega⟩
    · obtain ⟨h1, h2, h3⟩ := ih (c0 + 1) w h
      exact ⟨h1, by omega, by simp only [List.length_cons]; omega⟩

theorem blockWrites_mem (c0 : Nat) (cname : String) (cols : List PatientColumn)
    (hne : cols ≠ []) :
    ∀ w ∈ blockWrites c0 cname cols, c0 ≤ w.col ∧ w.col < c0 + cols.length := by
  intro w h
  rw [blockWrites] at h
  rcases List.mem_append.mp h with h | h
  · rcases List.mem_append.mp h with h | h
    · obtain ⟨_, h2, h3⟩ := headerWrites_mem cols c0 w h
      exact ⟨h2, h3⟩
    · rw [List.mem_singleton.mp h]
      have hpos : 0 < cols.length := List.length_pos.mpr hne
      exact ⟨Nat.le_refl _, show c0 < c0 + cols.length by omega⟩
  · obtain ⟨_, h2, h3⟩ := dateWrites_mem cols c0 w h
    exact ⟨h2, h3⟩

theorem detalleAux_cons_ne (cur : Nat) (cn : String) (cs : List PatientColumn)
    (rest : List (String × List PatientColumn)) (h : ¬(cs = [])) :
    detalleSheetAux cur ((cn, cs) :: rest) =
      (blockWrites cur cn cs ++ (detalleSheetAux (cur + cs.length) rest).1,
       blockMerges cur cs ++ (detalleSheetAux (cur + cs.length) rest).2) := by
  simp [detalleSheetAux, h]

theorem detalleAux_cons_nil (cur : Nat) (cn : String)
    (rest : List (String × List PatientColumn)) :
    detalleSheetAux cur ((cn, []) :: rest) = detalleSheetAux cur rest := by
  simp [detalleSheetAux]

theorem detalleAux_writes_mem (l : List (String × List PatientColumn)) :
    ∀ (cur : Nat) (w : CellWrite), w ∈ (detalleSheetAux cur l).1 → cur ≤ w.col := by
  induction l with
  | nil => intro cur w h; simp [detalleSheetAux] at h
  | cons p rest ih =>
    obtain ⟨cn, cs⟩ := p
    intro cur w h
    by_cases hcs : cs = []
    · subst hcs
      rw [detalleAux_cons_nil] at h
      exact ih cur w h
    · rw [detalleAux_cons_ne cur cn cs rest hcs] at h
      rcases List.mem_append.mp h with h | h
      · exact (blockWrites_mem cur cn cs hcs w h).1
      · have := ih (cur + cs.length) w h
        omega

theorem blockMerges_mem (c0 : Nat) (cols : List PatientColumn) :
    ∀ m ∈ blockMerges c0 cols,
      m.start_column = c0 ∧ m.end_column = c0 + cols.length - 1 ∧ 1 < cols.length := by
  intro m h
  rw [blockMerges] at h
  split at h
  · rw [List.mem_singleton.mp h]
    exact ⟨rfl, rfl, by omega⟩
  · simp at h

theorem detalleAux_merges_mem (l : List (String × List PatientColumn)) :
    ∀ (cur : Nat) (m : MergeSpec), m ∈ (detalleSheetAux cur l).2 → cur ≤ m.start_column := by
  induction l with
  | nil => intro cur m h; simp [detalleSheetAux] at h
  | cons p rest ih =>
    obtain ⟨cn, cs⟩ := p
    intro cur m h
    by_cases hcs : cs = []
    · subst hcs
      rw [detalleAux_cons_nil] at h
      exact ih cur m h
    · rw [detalleAux_cons_ne cur cn cs rest hcs] at h
      rcases List.mem_append.mp h with h | h
      · rw [(blockMerges_mem cur cs m h).1]
      · have := ih (cur + cs.length) m h
        omega

/-! ## Locating individual cells inside the generated writes -/

theorem cellAt_cons_mk_self (r0 c0 : Nat) (v : String) (ws : List CellWrite) :
    cellAt ({ row := r0, col := c0, val := v } :: ws) r0 c0 = some v := by
  unfold cellAt
  rw [List.find?_cons_of_pos _ (by simp)]
  rfl

theorem cellAt_cons_mk_ne (r0 c0 : Nat) (v : String) (ws : List CellWrite) (r c : Nat)
    (h : ¬(r0 = r ∧ c0 = c)) :
    cellAt ({ row := r0, col := c0, val := v } :: ws) r c = cellAt ws r c := by
  unfold cellAt
  rw [List.find?_cons_of_neg _ (by simpa using h)]

theorem headerWrites_cellAt_none (cols : List PatientColumn) (c0 r c : Nat)
    (h : r ≠ 1 ∨ c < c0 ∨ c0 + cols.length ≤ c) :
    cellAt (headerWrites c0 cols) r c = none := by
  apply cellAt_none_of_all
  intro w hw
  obtain ⟨h1, h2, h3⟩ := headerWrites_mem cols c0 w hw
  rintro ⟨hr, hc⟩
  omega

theorem dateWritesFor_cellAt_none (ds : List String) (r0 c r c2 : Nat)
    (h : c2 ≠ c ∨ r < r0 ∨ r0 + ds.length ≤ r) :
    cellAt (dateWritesFor r0 c ds) r c2 = none := by
  apply cellAt_none_of_all
  intro w hw
  obtain ⟨h1, h2, h3⟩ := dateWritesFor_mem ds r0 c w hw
  rintro ⟨hr, hc⟩
  omega

theorem dateWrites_cellAt_none_bounds (cols : List PatientColumn) (c0 r c : Nat)
    (h : r < 3 ∨ c < c0 ∨ c0 + cols.length ≤ c) :
    cellAt (dateWrites c0 cols) r c = none := by
  apply cellAt_none_of_all
  intro w hw
  obtain ⟨h1, h2, h3⟩ := dateWrites_mem cols c0 w hw
  rintro ⟨hr, hc⟩
  omega

theorem headerWrites_cellAt (cols : List PatientColumn) :
    ∀ (c0 j : Nat) (col : PatientColumn), cols.get? j = some col →
      cellAt (headerWrites c0 cols) 1 (c0 + j) = some col.patient_name := by
  induction cols with
  | nil => intro c0 j col h; simp at h
  | cons c cs ih =>
    intro c0 j col h
    cases j with
    | zero =>
      have hc : c = col := Option.some.inj h
      subst hc
      rw [headerWrites]
      exact cellAt_cons_mk_self 1 c0 c.patient_name _
    | succ j2 =>
      rw [List.get?_cons_succ] at h
      rw [headerWrites, cellAt_cons_mk_ne 1 c0 c.patient_name _ 1 (c0 + (j2 + 1))
        (by rintro ⟨_, hx⟩; omega)]
      rw [show c0 + (j2 + 1) = (c0 + 1) + j2 by omega]
      exact ih (c0 + 1) j2 col h

theorem dateWritesFor_cellAt (ds : List String) :
    ∀ (r0 c i : Nat) (d : String), ds.get? i = some d →
      cellAt (dateWritesFor r0 c ds) (r0 + i) c = some d := by
  induction ds with
  | nil => intro r0 c i d h; simp at h
  | cons x rest ih =>
    intro r0 c i d h
    cases i with
    | zero =>
      have hx : x = d := Option.some.inj h
      subst hx
      rw [dateWritesFor]
      exact cellAt_cons_mk_self r0 c x _
    | succ i2 =>
      rw [List.get?_cons_succ] at h
      rw [dateWritesFor, cellAt_cons_mk_ne r0 c x _ (r0 + (i2 + 1)) c
        (by rintro ⟨hx, _⟩; omega)]
      rw [show r0 + (i2 + 1) = (r0 + 1) + i2 by omega]
      exact ih (r0 + 1) c i2 d h

theorem dateWrites_cellAt_some (cols : List PatientColumn) :
    ∀ (c0 j : Nat) (col : PatientColumn) (i : Nat) (d : String), cols.get? j = some col →
      col.dates.get? i = some d →
      cellAt (dateWrites c0 cols) (3 + i) (c0 + j) = some d := by
  induction cols with
  | nil => intro c0 j col i d h _; simp at h
  | cons c cs ih =>
    intro c0 j col i d h hd
    cases j with
    | zero =>
      have hc : c = col := Option.some.inj h
      subst hc
      rw [dateWrites]
      exact cellAt_append_of_some _ _ _ _ _ (dateWritesFor_cellAt c.dates 3 c0 i d hd)
    | succ j2 =>
      rw [List.get?_cons_succ] at h
      rw [dateWrites]
      have hnone : cellAt (dateWritesFor 3 c0 c.dates) (3 + i) (c0 + (j2 + 1)) = none :=
        dateWritesFor_cellAt_none c.dates 3 c0 (3 + i) (c0 + (j2 + 1)) (Or.inl (by omega))
      rw [cellAt_append_of_none _ _ _ _ hnone]
      rw [show c0 + (j2 + 1) = (c0 + 1) + j2 by omega]
      exact ih (c0 + 1) j2 col i d h hd

theorem dateWrites_cellAt_none (cols : List PatientColumn) :
    ∀ (c0 j : Nat) (col : PatientColumn) (i : Nat), cols.get? j = some col →
      col.dates.length ≤ i →
      cellAt (dateWrites c0 cols) (3 + i) (c0 + j) = none := by
  induction cols with
  | nil => intro c0 j col i h _; simp at h
  | cons c cs ih =>
    intro c0 j col i h hlen
    cases j with
    | zero =>
      have hc : c = col := Option.some.inj h
      subst hc
      rw [dateWrites]
      have hnone : cellAt (dateWritesFor 3 c0 c.dates) (3 + i) (c0 + 0) = none :=
        dateWritesFor_cellAt_none c.dates 3 c0 (3 + i) (c0 + 0) (Or.inr (Or.inr (by omega)))
      rw [cellAt_append_of_none _ _ _ _ hnone]
      exact dateWrites_cellAt_none_bounds cs (c0 + 1) (3 + i) (c0 + 0)
        (Or.inr (Or.inl (by omega)))
    | succ j2 =>
      rw [List.get?_cons_succ] at h
      rw [dateWrites]
      have hnone : cellAt (dateWritesFor 3 c0 c.dates) (3 + i) (c0 + (j2 + 1)) = none :=
        dateWritesFor_cellAt_none c.dates 3 c0 (3 + i) (c0 + (j2 + 1)) (Or.inl (by omega))
      rw [cellAt_append_of_none _ _ _ _ hnone]
      rw [show c0 + (j2 + 1) = (c0 + 1) + j2 by omega]
      exact ih (c0 + 1) j2 col i h hlen

/-! ## Cells of a single calendar block -/

theorem blockWrites_cellAt_header (c0 : Nat) (cname : String) (cols : List PatientColumn)
    (j : Nat) (col : PatientColumn) (h : cols.get? j = some col) :
    cellAt (blockWrites c0 cname cols) 1 (c0 + j) = some col.patient_name := by
  rw [blockWrites, List.append_assoc]
  exact cellAt_append_of_some _ _ _ _ _ (headerWrites_cellAt cols c0 j col h)

theorem blockWrites_cellAt_cal (c0 : Nat) (cname : String) (cols : List PatientColumn) :
    cellAt (blockWrites c0 cname cols) 2 c0 = some cname := by
  rw [blockWrites, List.append_assoc]
  have h1 : cellAt (headerWrites c0 cols) 2 c0 = none :=
    headerWrites_cellAt_none cols c0 2 c0 (Or.inl (by omega))
  rw [cellAt_append_of_none _ _ _ _ h1, List.singleton_append]
  exact cellAt_cons_mk_self 2 c0 cname _

theorem blockWrites_cellAt_date_some (c0 : Nat) (cname : String) (cols : List PatientColumn)
    (j : Nat) (col : PatientColumn) (i : Nat) (d : String) (h : cols.get? j = some col)
    (hd : col.dates.get? i = some d) :
    cellAt (blockWrites c0 cname cols) (3 + i) (c0 + j) = some d := by
  rw [blockWrites, List.append_assoc]
  have h1 : cellAt (headerWrites c0 cols) (3 + i) (c0 + j) = none :=
    headerWrites_cellAt_none cols c0 (3 + i) (c0 + j) (Or.inl (by omega))
  rw [cellAt_append_of_none _ _ _ _ h1, List.singleton_append,
    cellAt_cons_mk_ne 2 c0 cname _ (3 + i) (c0 + j) (by rintro ⟨hx, _⟩; omega)]
  exact dateWrites_cellAt_some cols c0 j col i d h hd

theorem blockWrites_cellAt_date_none (c0 : Nat) (cname : String) (cols : List PatientColumn)
    (j : Nat) (col : PatientColumn) (i : Nat) (h : cols.get? j = some col)
    (hlen : col.dates.length ≤ i) :
    cellAt (blockWrites c0 cname cols) (3 + i) (c0 + j) = none := by
  rw [blockWrites, List.append_assoc]
  have h1 : cellAt (headerWrites c0 cols) (3 + i) (c0 + j) = none :=
    headerWrites_cellAt_none cols c0 (3 + i) (c0 + j) (Or.inl (by omega))
  rw [cellAt_append_of_none _ _ _ _ h1, List.singleton_append,
    cellAt_cons_mk_ne 2 c0 cname _ (3 + i) (c0 + j) (by rintro ⟨hx, _⟩; omega)]
  exact dateWrites_cellAt_none cols c0 j col i h hlen

theorem blockWrites_cellAt_none_of_ge (c0 : Nat) (cname : String) (cols : List PatientColumn)
    (hne : cols ≠ []) (r c : Nat) (hc : c0 + cols.length ≤ c) :
    cellAt (blockWrites c0 cname cols) r c = none := by
  apply cellAt_none_of_all
  intro w hw
  obtain ⟨h1, h2⟩ := blockWrites_mem c0 cname cols hne w hw
  rintro ⟨_, hcc⟩
  omega

/-! ## Offsets of calendar blocks -/

theorem sumTake_cons_zero (p : String × List PatientColumn)
    (l : List (String × List PatientColumn)) : sumTake (p :: l) 0 = 0 := rfl

theorem sumTake_cons_succ (p : String × List PatientColumn)
    (l : List (String × List PatientColumn)) (k : Nat) :
    sumTake (p :: l) (k + 1) = p.2.length + sumTake l k := by
  simp [sumTake]

theorem sumTake_cons_succ_mk (cn : String) (cs : List PatientColumn)
    (l : List (String × List PatientColumn)) (k : Nat) :
    sumTake ((cn, cs) :: l) (k + 1) = cs.length + sumTake l k := by
  rw [sumTake_cons_succ]

theorem sumTake_succ_get (l : List (String × List PatientColumn)) :
    ∀ (k : Nat) (p : String × List PatientColumn), l.get? k = some p →
      sumTake l (k + 1) = sumTake l k + p.2.length := by
  induction l with
  | nil => intro k p h; simp at h
  | cons q rest ih =>
    intro k p h
    cases k with
    | zero =>
      have hq : q = p := Option.some.inj h
      subst hq
      rw [sumTake_cons_succ, sumTake_cons_zero]
      simp [sumTake]
    | succ k2 =>
      rw [List.get?_cons_succ] at h
      rw [sumTake_cons_succ, sumTake_cons_succ, ih k2 p h]
      omega

theorem sumTake_mono (l : List (String × List PatientColumn)) :
    ∀ (k k2 : Nat), k ≤ k2 → sumTake l k ≤ sumTake l k2 := by
  induction l with
  | nil => intro k k2 _; simp [sumTake]
  | cons q rest ih =>
    intro k k2 hk
    cases k with
    | zero => rw [sumTake_cons_zero]; exact Nat.zero_le _
    | succ k3 =>
      cases k2 with
      | zero => omega
      | succ k4 =>
        rw [sumTake_cons_succ, sumTake_cons_succ]
        have := ih k3 k4 (by omega)
        omega

theorem blockMerges_mem_eq (c0 : Nat) (cols : List PatientColumn) (m : MergeSpec)
    (h : m ∈ blockMerges c0 cols) :
    1 < cols.length ∧ m = ⟨2, 2, c0, c0 + cols.length - 1⟩ := by
  rw [blockMerges] at h
  split at h
  · exact ⟨by omega, List.mem_singleton.mp h⟩
  · simp at h

/-! ## The cells written for each calendar block of the sheet -/

theorem detalleAux_cells (l : List (String × List PatientColumn)) :
    ∀ (cur k : Nat) (cname : String) (cols : List PatientColumn),
      l.get? k = some (cname, cols) → cols ≠ [] →
      (∀ (j : Nat) (col : PatientColumn), cols.get? j = some col →
        cellAt (detalleSheetAux cur l).1 1 (cur + sumTake l k + j) = some col.patient_name ∧
        (∀ (i : Nat) (d : String), col.dates.get? i = some d →
          cellAt (detalleSheetAux cur l).1 (3 + i) (cur + sumTake l k + j) = some d) ∧
        (∀ (i : Nat), col.dates.length ≤ i →
          cellAt (detalleSheetAux cur l).1 (3 + i) (cur + sumTake l k + j) = none)) ∧
      cellAt (detalleSheetAux cur l).1 2 (cur + sumTake l k) = some cname := by
  induction l with
  | nil => intro cur k cname cols h _; simp at h
  | cons p rest ih =>
    intro cur k cname cols h hne
    obtain ⟨cn0, cols0⟩ := p
    by_cases h0 : cols0 = []
    · subst h0
      cases k with
      | zero =>
        rw [List.get?_cons_zero] at h
        exact absurd (congrArg Prod.snd (Option.some.inj h)).symm hne
      | succ k2 =>
        rw [List.get?_cons_succ] at h
        rw [detalleAux_cons_nil]
        rw [show sumTake ((cn0, ([] : List PatientColumn)) :: rest) (k2 + 1) = sumTake rest k2
          by rw [sumTake_cons_succ]; simp]
        exact ih cur k2 cname cols h hne
    · rw [detalleAux_cons_ne cur cn0 cols0 rest h0]
      cases k with
      | zero =>
        rw [List.get?_cons_zero] at h
        have hp := Option.some.inj h
        have hcn : cn0 = cname := congrArg Prod.fst hp
        have hcols : cols0 = cols := congrArg Prod.snd hp
        subst hcn
        subst hcols
        rw [show sumTake ((cn0, cols0) :: rest) 0 = 0 from rfl]
        constructor
        · intro j col hj
          have hjlt : j < cols0.length := by
            rcases Nat.lt_or_ge j cols0.length with hx | hx
            · exact hx
            · rw [List.get?_eq_none.mpr hx] at hj
              exact absurd hj (by simp)
          refine ⟨?_, ?_, ?_⟩
          · rw [show cur + 0 + j = cur + j by omega]
            exact cellAt_append_of_some _ _ _ _ _
              (blockWrites_cellAt_header cur cn0 cols0 j col hj)
          · intro i d hd
            rw [show cur + 0 + j = cur + j by omega]
            exact cellAt_append_of_some _ _ _ _ _
              (blockWrites_cellAt_date_some cur cn0 cols0 j col i d hj hd)
          · intro i hi
            rw [show cur + 0 + j = cur + j by omega]
            rw [cellAt_append_of_none _ _ _ _
              (blockWrites_cellAt_date_none cur cn0 cols0 j col i hj hi)]
            apply cellAt_none_of_all
            intro w hw
            have hcol := detalleAux_writes_mem rest (cur + cols0.length) w hw
            rintro ⟨_, hc⟩
            omega
        · rw [show cur + 0 = cur by omega]
          exact cellAt_append_of_some _ _ _ _ _ (blockWrites_cellAt_cal cur cn0 cols0)
      | succ k2 =>
        rw [List.get?_cons_succ] at h
        rw [sumTake_cons_succ_mk]
        have hres := ih (cur + cols0.length) k2 cname cols h hne
        have hb : ∀ (r c2 : Nat), cur + cols0.length ≤ c2 →
            cellAt (blockWrites cur cn0 cols0) r c2 = none :=
          fun r c2 hge => blockWrites_cellAt_none_of_ge cur cn0 cols0 h0 r c2 hge
        constructor
        · intro j col hj
          refine ⟨?_, ?_, ?_⟩
          · rw [cellAt_append_of_none _ _ _ _ (hb 1 _ (by omega))]
            rw [show cur + (cols0.length + sumTake rest k2) + j =
              (cur + cols0.length) + sumTake rest k2 + j by omega]
            exact ((hres.1 j col hj).1)
          · intro i d hd
            rw [cellAt_append_of_none _ _ _ _ (hb (3 + i) _ (by omega))]
            rw [show cur + (cols0.length + sumTake rest k2) + j =
              (cur + cols0.length) + sumTake rest k2 + j by omega]
            exact ((hres.1 j col hj).2.1 i d hd)
          · intro i hi
            rw [cellAt_append_of_none _ _ _ _ (hb (3 + i) _ (by omega))]
            rw [show cur + (cols0.length + sumTake rest k2) + j =
              (cur + cols0.length) + sumTake rest k2 + j by omega]
            exact ((hres.1 j col hj).2.2 i hi)
        · rw [cellAt_append_of_none _ _ _ _ (hb 2 _ (by omega))]
          rw [show cur + (cols0.length + sumTake rest k2) =
            (cur + cols0.length) + sumTake rest k2 by omega]
          exact hres.2

/-! ## The merges produced by the sheet -/

theorem detalleAux_merges_iff (l : List (String × List PatientColumn)) :
    ∀ (cur : Nat) (m : MergeSpec),
      m ∈ (detalleSheetAux cur l).2 ↔
        ∃ (k : Nat) (cname : String) (cols : List PatientColumn),
          l.get? k = some (cname, cols) ∧ 1 < cols.length ∧
          m = ⟨2, 2, cur + sumTake l k, cur + sumTake l k + cols.length - 1⟩ := by
  induction l with
  | nil =>
    intro cur m
    constructor
    · intro h; simp [detalleSheetAux] at h
    · rintro ⟨k, cname, cols, hk, _, _⟩; simp at hk
  | cons p rest ih =>
    obtain ⟨cn0, cols0⟩ := p
    intro cur m
    by_cases h0 : cols0 = []
    · subst h0
      rw [detalleAux_cons_nil, ih cur m]
      constructor
      · rintro ⟨k, cname, cols, hk, hlen, hm⟩
        refine ⟨k + 1, cname, cols, by rw [List.get?_cons_succ]; exact hk, hlen, ?_⟩
        rw [hm, sumTake_cons_succ_mk]
        simp
      · rintro ⟨k, cname, cols, hk, hlen, hm⟩
        cases k with
        | zero =>
          rw [List.get?_cons_zero] at hk
          have hc : ([] : List PatientColumn) = cols := congrArg Prod.snd (Option.some.inj hk)
          rw [← hc] at hlen
          simp at hlen
        | succ k2 =>
          rw [List.get?_cons_succ] at hk
          refine ⟨k2, cname, cols, hk, hlen, ?_⟩
          rw [hm, sumTake_cons_succ_mk]
          simp
    · have hEq : (detalleSheetAux cur ((cn0, cols0) :: rest)).2 =
          blockMerges cur cols0 ++ (detalleSheetAux (cur + cols0.length) rest).2 := by
        rw [detalleAux_cons_ne cur cn0 cols0 rest h0]
      rw [hEq, List.mem_append]
      constructor
      · rintro (h | h)
        · obtain ⟨h1, h2⟩ := blockMerges_mem_eq cur cols0 m h
          refine ⟨0, cn0, cols0, rfl, h1, ?_⟩
          rw [h2, sumTake_cons_zero]
          simp only [MergeSpec.mk.injEq]
          exact ⟨trivial, trivial, by omega, by omega⟩
        · rw [ih (cur + cols0.length) m] at h
          obtain ⟨k, cname, cols, hk, hlen, hm⟩ := h
          refine ⟨k + 1, cname, cols, by rw [List.get?_cons_succ]; exact hk, hlen, ?_⟩
          rw [hm, sumTake_cons_succ_mk]
          simp only [MergeSpec.mk.injEq]
          exact ⟨trivial, trivial, by omega, by omega⟩
      · rintro ⟨k, cname, cols, hk, hlen, hm⟩
        cases k with
        | zero =>
          rw [List.get?_cons_zero] at hk
          have hp := Option.some.inj hk
          have hcn : cn0 = cname := congrArg Prod.fst hp
          have hcols : cols0 = cols := congrArg Prod.snd hp
          subst hcn
          subst hcols
          left
          rw [blockMerges, if_pos hlen, hm, sumTake_cons_zero]
          simp
        | succ k2 =>
          rw [List.get?_cons_succ] at hk
          right
          rw [ih (cur + cols0.length) m]
          refine ⟨k2, cname, cols, hk, hlen, ?_⟩
          rw [hm, sumTake_cons_succ_mk]
          simp only [MergeSpec.mk.injEq]
          exact ⟨trivial, trivial, by omega, by omega⟩

/-! ## Calendars with no columns leave no trace -/

theorem detalleAux_filter (l : List (String × List PatientColumn)) :
    ∀ (cur : Nat),
      detalleSheetAux cur (l.filter (fun p => !decide (p.2 = []))) = detalleSheetAux cur l := by
  induction l with
  | nil => intro cur; rfl
  | cons p rest ih =>
    obtain ⟨cn0, cols0⟩ := p
    intro cur
    by_cases h0 : cols0 = []
    · subst h0
      rw [detalleAux_cons_nil]
      rw [show ((cn0, ([] : List PatientColumn)) :: rest).filter (fun p => !decide (p.2 = [])) =
        rest.filter (fun p => !decide (p.2 = [])) by simp]
      exact ih cur
    · rw [detalleAux_cons_ne cur cn0 cols0 rest h0]
      rw [show ((cn0, cols0) :: rest).filter (fun p => !decide (p.2 = [])) =
        (cn0, cols0) :: rest.filter (fun p => !decide (p.2 = [])) by simp [List.filter_cons, h0]]
      rw [detalleAux_cons_ne cur cn0 cols0 _ h0]
      rw [ih (cur + cols0.length)]

/-- C6: the banded detail layout processes calendars in input order; a
calendar with at least one column occupies the contiguous grid columns
starting at its offset, one per PatientColumn in list order, with the
column label in row 1, the calendar display name in row 2 at the start of
the run, each column's dates in consecutive rows from row 3 with cells
beyond the date count blank; the merges are exactly the row-2 spans of the
runs with more than one column (so a single-column run's row-2 cell is
covered by no merge); and calendars with no columns leave the sheet
unchanged. -/
theorem c6_banded_layout (detalle : List (String × List PatientColumn))
    (k : Nat) (cname : String) (cols : List PatientColumn)
    (hk : detalle.get? k = some (cname, cols)) (hne : cols ≠ []) :
    (∀ (j : Nat) (col : PatientColumn), cols.get? j = some col →
      cellAt (create_detalle_sheet detalle).1 1 (colOffset detalle k + j)
          = some col.patient_name ∧
      (∀ (i : Nat) (d : String), col.dates.get? i = some d →
        cellAt (create_detalle_sheet detalle).1 (3 + i) (colOffset detalle k + j) = some d) ∧
      (∀ (i : Nat), col.dates.length ≤ i →
        cellAt (create_detalle_sheet detalle).1 (3 + i) (colOffset detalle k + j) = none)) ∧
    cellAt (create_detalle_sheet detalle).1 2 (colOffset detalle k) = some cname ∧
    (∀ m : MergeSpec, m ∈ (create_detalle_sheet detalle).2 ↔
      ∃ (k2 : Nat) (cn2 : String) (cols2 : List PatientColumn),
        detalle.get? k2 = some (cn2, cols2) ∧ 1 < cols2.length ∧
        m = ⟨2, 2, colOffset detalle k2, colOffset detalle k2 + cols2.length - 1⟩) ∧
    (cols.length = 1 → ∀ m ∈ (create_detalle_sheet detalle).2,
      ¬(m.start_column ≤ colOffset detalle k ∧ colOffset detalle k ≤ m.end_column)) ∧
    create_detalle_sheet (detalle.filter (fun p => !decide (p.2 = [])))
        = create_detalle_sheet detalle := by
  have hcells := detalleAux_cells detalle 1 k cname cols hk hne
  have hmerge := detalleAux_merges_iff detalle 1
  refine ⟨hcells.1, hcells.2, hmerge, ?_, detalleAux_filter detalle 1⟩
  intro hone m hm hcontra
  have hm2 : ∃ (k2 : Nat) (cn2 : String) (cols2 : List PatientColumn),
      detalle.get? k2 = some (cn2, cols2) ∧ 1 < cols2.length ∧
      m = ⟨2, 2, 1 + sumTake detalle k2, 1 + sumTake detalle k2 + cols2.length - 1⟩ :=
    (hmerge m).mp hm
  obtain ⟨k2, cn2, cols2, hk2, hlen2, hmEq⟩ := hm2
  subst hmEq
  have hs : 1 + sumTake detalle k2 ≤ colOffset detalle k := hcontra.1
  have he : colOffset detalle k ≤ 1 + sumTake detalle k2 + cols2.length - 1 := hcontra.2
  have hco : colOffset detalle k = 1 + sumTake detalle k := rfl
  rcases Nat.lt_trichotomy k2 k with hlt | heq | hgt
  · have hstep : sumTake detalle (k2 + 1) = sumTake detalle k2 + cols2.length :=
      sumTake_succ_get detalle k2 (cn2, cols2) hk2
    have hmono := sumTake_mono detalle (k2 + 1) k (by omega)
    omega
  · subst heq
    rw [hk] at hk2
    have hc : cols = cols2 := congrArg Prod.snd (Option.some.inj hk2)
    rw [← hc] at hlen2
    omega
  · have hstep : sumTake detalle (k + 1) = sumTake detalle k + cols.length :=
      sumTake_succ_get detalle k (cname, cols) hk
    have hmono := sumTake_mono detalle (k + 1) k2 (by omega)
    omega

theorem c6_banded_layout_witness :
    (c6SampleDetalle.get? 0 = some ("C", [PatientColumn.mk "A" ["x"]])) ∧
    ([PatientColumn.mk "A" ["x"]] ≠ ([] : List PatientColumn)) ∧
    ((∀ (j : Nat) (col : PatientColumn), [PatientColumn.mk "A" ["x"]].get? j = some col →
      cellAt (create_detalle_sheet c6SampleDetalle).1 1 (colOffset c6SampleDetalle 0 + j)
          = some col.patient_name ∧
      (∀ (i : Nat) (d : String), col.dates.get? i = some d →
        cellAt (create_detalle_sheet c6SampleDetalle).1 (3 + i)
            (colOffset c6SampleDetalle 0 + j) = some d) ∧
      (∀ (i : Nat), col.dates.length ≤ i →
        cellAt (create_detalle_sheet c6SampleDetalle).1 (3 + i)
            (colOffset c6SampleDetalle 0 + j) = none)) ∧
    cellAt (create_detalle_sheet c6SampleDetalle).1 2 (colOffset c6SampleDetalle 0) = some "C" ∧
    (∀ m : MergeSpec, m ∈ (create_detalle_sheet c6SampleDetalle).2 ↔
      ∃ (k2 : Nat) (cn2 : String) (cols2 : List PatientColumn),
        c6SampleDetalle.get? k2 = some (cn2, cols2) ∧ 1 < cols2.length ∧
        m = ⟨2, 2, colOffset c6SampleDetalle k2, colOffset c6SampleDetalle k2
              + cols2.length - 1⟩) ∧
    ([PatientColumn.mk "A" ["x"]].length = 1 → ∀ m ∈ (create_detalle_sheet c6SampleDetalle).2,
      ¬(m.start_column ≤ colOffset c6SampleDetalle 0 ∧
        colOffset c6SampleDetalle 0 ≤ m.end_column)) ∧
    create_detalle_sheet (c6SampleDetalle.filter (fun p => !decide (p.2 = [])))
        = create_detalle_sheet c6SampleDetalle) :=
  ⟨rfl, List.cons_ne_nil _ _,
    c6_banded_layout c6SampleDetalle 0 "C" [PatientColumn.mk "A" ["x"]] rfl
      (List.cons_ne_nil _ _)⟩

/-! ## The greedy regex engine: equations and backtracking facts -/

theorem reMatch_lit (cs : List Char) (ps : List RegexItem) (input : List Char) :
    reMatch (.lit cs :: ps) input =
      match stripLitCI cs input with
      | some rest => reMatch ps rest
      | none => none := rfl

theorem reMatch_ws (ps : List RegexItem) (input : List Char) :
    reMatch (.wsPlus :: ps) input =
      (descSuffixes input (input.takeWhile isPySpace).length).findSome?
        (fun rest => reMatch ps rest) := rfl

theorem reMatch_dot (ps : List RegexItem) (input : List Char) :
    reMatch (.dotPlusGroup :: ps) input =
      (descSplits input (input.takeWhile (fun c => !(c = '\n'))).length).findSome?
        (fun s =>
          match reMatch ps s.2 with
          | some _ => some (some s.1)
          | none => none) := rfl

theorem reMatch_eos (ps : List RegexItem) (input : List Char) :
    reMatch (.eos :: ps) input =
      if input = [] ∨ input = ['\n'] then reMatch ps input else none := rfl

theorem isPySpace_cases (c : Char) (h : isPySpace c = true) :
    c = ' ' ∨ c = '\t' ∨ c = '\n' ∨ c = '\r' ∨ c = '\x0b' ∨ c = '\x0c' := by
  simp [isPySpace] at h
  tauto

theorem isPySpace_toLower_ne_d (c : Char) (h : isPySpace c = true) :
    ¬(Char.toLower c = Char.toLower 'd') := by
  rcases isPySpace_cases c h with h | h | h | h | h | h <;> subst h <;> decide

theorem newline_isPySpace (c : Char) (h : c = '\n') : isPySpace c = true := by
  subst h; decide

theorem descSuffixes_mem (input : List Char) :
    ∀ (k : Nat) (s : List Char), s ∈ descSuffixes input k →
      ∃ j, 1 ≤ j ∧ j ≤ k ∧ s = input.drop j := by
  intro k
  induction k with
  | zero => intro s h; simp [descSuffixes] at h
  | succ k2 ih =>
    intro s h
    rw [descSuffixes] at h
    rcases List.mem_cons.mp h with h | h
    · exact ⟨k2 + 1, by omega, by omega, h⟩
    · obtain ⟨j, h1, h2, h3⟩ := ih s h
      exact ⟨j, h1, by omega, h3⟩

theorem descSplits_mem (input : List Char) :
    ∀ (k : Nat) (s : List Char × List Char), s ∈ descSplits input k →
      ∃ j, 1 ≤ j ∧ j ≤ k ∧ s = (input.take j, input.drop j) := by
  intro k
  induction k with
  | zero => intro s h; simp [descSplits] at h
  | succ k2 ih =>
    intro s h
    rw [descSplits] at h
    rcases List.mem_cons.mp h with h | h
    · exact ⟨k2 + 1, by omega, by omega, h⟩
    · obtain ⟨j, h1, h2, h3⟩ := ih s h
      exact ⟨j, h1, by omega, h3⟩

theorem drop_head_of_lt_takeWhile (q : Char → Bool) :
    ∀ (m : List Char) (j : Nat), j < (m.takeWhile q).length →
      ∃ c cs, m.drop j = c :: cs ∧ q c = true := by
  intro m
  induction m with
  | nil => intro j h; simp at h
  | cons c cs ih =>
    intro j h
    rw [List.takeWhile_cons] at h
    by_cases hq : q c = true
    · rw [if_pos hq] at h
      cases j with
      | zero => exact ⟨c, cs, rfl, hq⟩
      | succ j2 =>
        rw [List.length_cons] at h
        exact ih j2 (by omega)
    · rw [if_neg hq] at h
      simp at h

theorem take_takeWhile_length (q : Char → Bool) :
    ∀ (m : List Char), m.take ((m.takeWhile q).length) = m.takeWhile q := by
  intro m
  induction m with
  | nil => rfl
  | cons c cs ih =>
    rw [List.takeWhile_cons]
    by_cases hq : q c = true
    · rw [if_pos hq, List.length_cons, List.take_succ_cons, ih]
    · rw [if_neg hq]
      rfl

theorem drop_takeWhile_length (q : Char → Bool) :
    ∀ (m : List Char), m.drop ((m.takeWhile q).length) = m.dropWhile q := by
  intro m
  induction m with
  | nil => rfl
  | cons c cs ih =>
    rw [List.takeWhile_cons, List.dropWhile_cons]
    by_cases hq : q c = true
    · rw [if_pos hq, if_pos hq, List.length_cons, List.drop_succ_cons, ih]
    · rw [if_neg hq, if_neg hq]
      rfl

theorem eosCont_eval (a b : List Char) :
    (match reMatch [RegexItem.eos] b with
     | some _ => some (some a)
     | none => none) =
      if b = [] ∨ b = ['\n'] then some (some a) else none := by
  by_cases h : b = [] ∨ b = ['\n']
  · rw [if_pos h]
    show (match reMatch [RegexItem.eos] b with
          | some _ => some (some a)
          | none => none) = some (some a)
    rw [reMatch_eos, if_pos h]
    rfl
  · rw [if_neg h]
    show (match reMatch [RegexItem.eos] b with
          | some _ => some (some a)
          | none => none) = none
    rw [reMatch_eos, if_neg h]

theorem findSome_cons_some {α β : Type} (f : α → Option β) (a : α) (l : List α) (b : β)
    (h : f a = some b) : (a :: l).findSome? f = some b := by
  rw [List.findSome?_cons, h]

theorem findSome_cons_none {α β : Type} (f : α → Option β) (a : α) (l : List α)
    (h : f a = none) : (a :: l).findSome? f = l.findSome? f := by
  rw [List.findSome?_cons, h]

theorem reMatch_dot_eos (m : List Char) :
    reMatch [RegexItem.dotPlusGroup, RegexItem.eos] m =
      if (m.takeWhile (fun c => !(c = '\n'))).length = 0 then none
      else if m.dropWhile (fun c => !(c = '\n')) = [] ∨
              m.dropWhile (fun c => !(c = '\n')) = ['\n'] then
        some (some (m.takeWhile (fun c => !(c = '\n'))))
      else none := by
  rw [reMatch_dot]
  cases hL : (m.takeWhile (fun c => !(c = '\n'))).length with
  | zero => simp [descSplits]
  | succ L2 =>
    rw [if_neg (by omega)]
    have hdw : m.drop (L2 + 1) = m.dropWhile (fun c => !(c = '\n')) := by
      rw [← hL]
      exact drop_takeWhile_length _ m
    have htw : m.take (L2 + 1) = m.takeWhile (fun c => !(c = '\n')) := by
      rw [← hL]
      exact take_takeWhile_length _ m
    rw [descSplits, hdw, htw]
    by_cases hc : m.dropWhile (fun c => !(c = '\n')) = [] ∨
        m.dropWhile (fun c => !(c = '\n')) = ['\n']
    · rw [if_pos hc]
      apply findSome_cons_some
      exact (eosCont_eval (m.takeWhile (fun c => !(c = '\n')))
        (m.dropWhile (fun c => !(c = '\n')))).trans (if_pos hc)
    · rw [if_neg hc]
      have hx : (fun s : List Char × List Char =>
          match reMatch [RegexItem.eos] s.2 with
          | some _ => some (some s.1)
          | none => none)
          (m.takeWhile (fun c => !(c = '\n')), m.dropWhile (fun c => !(c = '\n'))) = none :=
        (eosCont_eval _ _).trans (if_neg hc)
      rw [findSome_cons_none
        (fun s : List Char × List Char =>
          match reMatch [RegexItem.eos] s.2 with
          | some _ => some (some s.1)
          | none => none)
        (m.takeWhile (fun c => !(c = '\n')), m.dropWhile (fun c => !(c = '\n')))
        (descSplits m L2) hx]
      apply List.findSome?_eq_none.mpr
      intro s hs
      obtain ⟨j, hj1, hj2, hj3⟩ := descSplits_mem m L2 s hs
      subst hj3
      have hj : j < (m.takeWhile (fun c => !(c = '\n'))).length := by omega
      obtain ⟨c, cs, hdrop, hqc⟩ := drop_head_of_lt_takeWhile _ m j hj
      have hcne : ¬(c = '\n') := by simpa using hqc
      refine (eosCont_eval (m.take j) (m.drop j)).trans (if_neg ?_)
      rintro (h | h) <;> rw [hdrop] at h
      · exact absurd h (by simp)
      · exact hcne (List.head_eq_of_cons_eq h)

theorem dropWhile_append_tail (q : Char → Bool) (v : List Char) (hv : v ≠ []) :
    ∀ (a : List Char), ((a ++ v).dropWhile q = [] ∨ (a ++ v).dropWhile q = ['\n']) →
      (v.dropWhile q = [] ∨ v.dropWhile q = ['\n']) := by
  intro a
  induction a with
  | nil => intro h; simpa using h
  | cons x a2 ih =>
    intro h
    rw [List.cons_append, List.dropWhile_cons] at h
    by_cases hq : q x = true
    · rw [if_pos hq] at h
      exact ih h
    · rw [if_neg hq] at h
      rcases h with h | h
      · exact absurd h (by simp)
      · have h2 : a2 ++ v = [] := List.tail_eq_of_cons_eq h
        rcases List.append_eq_nil.mp h2 with ⟨_, hv2⟩
        exact absurd hv2 hv

theorem dotEos_append_none (v : List Char) (hv : v ≠ [])
    (hfail : ¬(v.dropWhile (fun c => !(c = '\n')) = [] ∨
               v.dropWhile (fun c => !(c = '\n')) = ['\n'])) (a : List Char) :
    reMatch [RegexItem.dotPlusGroup, RegexItem.eos] (a ++ v) = none := by
  rw [reMatch_dot_eos]
  by_cases hL : ((a ++ v).takeWhile (fun c => !(c = '\n'))).length = 0
  · rw [if_pos hL]
  · rw [if_neg hL]
    exact if_neg (fun h => hfail (dropWhile_append_tail _ v hv a h))

theorem reMatch_findSome_cons_none (ps : List RegexItem) (a : List Char)
    (l : List (List Char)) (h : reMatch ps a = none) :
    (a :: l).findSome? (fun rest => reMatch ps rest) =
      l.findSome? (fun rest => reMatch ps rest) := by
  rw [List.findSome?_cons]
  simp [h]

theorem reMatch_findSome_cons_some (ps : List RegexItem) (a : List Char)
    (l : List (List Char)) (x : Option (List Char)) (h : reMatch ps a = some x) :
    (a :: l).findSome? (fun rest => reMatch ps rest) = some x := by
  rw [List.findSome?_cons]
  simp [h]

theorem dropWhile_head_not (q : Char → Bool) :
    ∀ (l : List Char) (c : Char) (cs : List Char), l.dropWhile q = c :: cs → q c = false := by
  intro l
  induction l with
  | nil => intro c cs h; simp at h
  | cons x l2 ih =>
    intro c cs h
    rw [List.dropWhile_cons] at h
    by_cases hq : q x = true
    · rw [if_pos hq] at h
      exact ih c cs h
    · rw [if_neg hq] at h
      have hx : x = c := List.head_eq_of_cons_eq h
      subst hx
      exact Bool.eq_false_iff.mpr hq

theorem reMatch_ws_lit (c0 : Char) (cs2 : List Char) (ps : List RegexItem)
    (h0 : ∀ c, isPySpace c = true → ¬(Char.toLower c = Char.toLower c0)) (u1 : List Char) :
    reMatch (.wsPlus :: .lit (c0 :: cs2) :: ps) u1 =
      if u1.takeWhile isPySpace = [] then none
      else reMatch (.lit (c0 :: cs2) :: ps) (u1.dropWhile isPySpace) := by
  rw [reMatch_ws]
  cases hL : (u1.takeWhile isPySpace).length with
  | zero =>
    rw [if_pos (List.length_eq_zero.mp hL)]
    simp [descSuffixes]
  | succ L2 =>
    have hne : ¬(u1.takeWhile isPySpace = []) := by
      intro he
      rw [he] at hL
      simp at hL
    rw [if_neg hne, descSuffixes]
    have hdw : u1.drop (L2 + 1) = u1.dropWhile isPySpace := by
      rw [← hL]
      exact drop_takeWhile_length _ u1
    rw [hdw]
    cases hf : reMatch (.lit (c0 :: cs2) :: ps) (u1.dropWhile isPySpace) with
    | some x => exact reMatch_findSome_cons_some _ _ _ _ hf
    | none =>
      rw [reMatch_findSome_cons_none _ _ _ hf]
      apply List.findSome?_eq_none.mpr
      intro s hs
      obtain ⟨j, hj1, hj2, hj3⟩ := descSuffixes_mem u1 L2 s hs
      subst hj3
      have hj : j < (u1.takeWhile isPySpace).length := by omega
      obtain ⟨c, cs, hdrop, hqc⟩ := drop_head_of_lt_takeWhile _ u1 j hj
      show reMatch (.lit (c0 :: cs2) :: ps) (u1.drop j) = none
      rw [hdrop, reMatch_lit]
      simp [stripLitCI, h0 c hqc]

theorem reMatch_ws_de (ps : List RegexItem) (u1 : List Char) :
    reMatch (.wsPlus :: .lit "de".data :: ps) u1 =
      if u1.takeWhile isPySpace = [] then none
      else reMatch (.lit "de".data :: ps) (u1.dropWhile isPySpace) := by
  rw [show ("de".data : List Char) = 'd' :: ['e'] from rfl]
  exact reMatch_ws_lit 'd' ['e'] ps isPySpace_toLower_ne_d u1

theorem ws_dot_eos_empty (u3 : List Char) (h : u3.takeWhile isPySpace = []) :
    reMatch [RegexItem.wsPlus, RegexItem.dotPlusGroup, RegexItem.eos] u3 = none := by
  rw [reMatch_ws, h]
  simp [descSuffixes]

theorem ws_dot_eos_some (u3 : List Char) (hw : u3.takeWhile isPySpace ≠ [])
    (hc : (u3.dropWhile isPySpace).dropWhile (fun c => !(c = '\n')) = [] ∨
          (u3.dropWhile isPySpace).dropWhile (fun c => !(c = '\n')) = ['\n'])
    (c : Char) (v2 : List Char) (hv : u3.dropWhile isPySpace = c :: v2) :
    reMatch [RegexItem.wsPlus, RegexItem.dotPlusGroup, RegexItem.eos] u3 =
      some (some ((u3.dropWhile isPySpace).takeWhile (fun c => !(c = '\n')))) := by
  rw [reMatch_ws]
  cases hL : (u3.takeWhile isPySpace).length with
  | zero => exact absurd (List.length_eq_zero.mp hL) hw
  | succ L2 =>
    rw [descSuffixes]
    have hdw : u3.drop (L2 + 1) = u3.dropWhile isPySpace := by
      rw [← hL]
      exact drop_takeWhile_length _ u3
    rw [hdw]
    apply reMatch_findSome_cons_some
    rw [reMatch_dot_eos]
    have hcnl : ¬(c = '\n') := by
      have := dropWhile_head_not isPySpace u3 c v2 hv
      intro he
      rw [newline_isPySpace c he] at this
      exact absurd this (by simp)
    have hne0 : ¬(((u3.dropWhile isPySpace).takeWhile (fun c => !(c = '\n'))).length = 0) := by
      rw [hv, List.takeWhile_cons, if_pos (by simpa using hcnl)]
      simp
    rw [if_neg hne0, if_pos hc]

theorem ws_dot_eos_fail (u3 : List Char) (hv : u3.dropWhile isPySpace ≠ [])
    (hc : ¬((u3.dropWhile isPySpace).dropWhile (fun c => !(c = '\n')) = [] ∨
            (u3.dropWhile isPySpace).dropWhile (fun c => !(c = '\n')) = ['\n'])) :
    reMatch [RegexItem.wsPlus, RegexItem.dotPlusGroup, RegexItem.eos] u3 = none := by
  rw [reMatch_ws]
  apply List.findSome?_eq_none.mpr
  intro s hs
  obtain ⟨j, hj1, hj2, hj3⟩ := descSuffixes_mem u3 _ s hs
  subst hj3
  show reMatch [RegexItem.dotPlusGroup, RegexItem.eos] (u3.drop j) = none
  have hsplit : u3.drop j = ((u3.takeWhile isPySpace).drop j) ++ u3.dropWhile isPySpace := by
    conv_lhs => rw [← List.takeWhile_append_dropWhile isPySpace u3]
    rw [List.drop_append_eq_append_drop,
      show j - (u3.takeWhile isPySpace).length = 0 by omega, List.drop_zero]
  rw [hsplit]
  exact dotEos_append_none _ hv hc _

theorem takeWhile_eq_self_of_dropWhile_nil (q : Char → Bool) (l : List Char)
    (h : l.dropWhile q = []) : l.takeWhile q = l := by
  have h2 := List.takeWhile_append_dropWhile q l
  rw [h] at h2
  simpa using h2

theorem ws_dot_eos_allws_single (u3 : List Char) (hv : u3.dropWhile isPySpace = [])
    (c : Char) (hr : u3.reverse = [c]) :
    reMatch [RegexItem.wsPlus, RegexItem.dotPlusGroup, RegexItem.eos] u3 = none := by
  have hu : u3 = [c] := by
    rw [← List.reverse_reverse u3, hr]
    rfl
  rw [reMatch_ws, takeWhile_eq_self_of_dropWhile_nil _ _ hv, hu]
  rw [show descSuffixes [c] ([c].length) = [([] : List Char)] from rfl]
  rw [reMatch_findSome_cons_none [RegexItem.dotPlusGroup, RegexItem.eos] [] _ rfl]
  rfl

theorem ws_dot_eos_allws_last (u3 : List Char) (hv : u3.dropWhile isPySpace = [])
    (c d : Char) (t : List Char) (hr : u3.reverse = c :: d :: t) (hcn : ¬(c = '\n')) :
    reMatch [RegexItem.wsPlus, RegexItem.dotPlusGroup, RegexItem.eos] u3 =
      some (some [c]) := by
  have hu : u3 = (d :: t).reverse ++ [c] := by
    rw [← List.reverse_reverse u3, hr, List.reverse_cons]
  have hlen : u3.length = t.length + 2 := by
    have hl2 := congrArg List.length hu
    simp at hl2
    omega
  rw [reMatch_ws, takeWhile_eq_self_of_dropWhile_nil _ _ hv, hlen, descSuffixes, descSuffixes]
  have h1 : u3.drop (t.length + 2) = [] := by
    rw [← hlen]
    exact List.drop_length u3
  have h2 : u3.drop (t.length + 1) = [c] := by
    rw [hu, List.drop_append_eq_append_drop]
    have e1 : List.drop (t.length + 1) (d :: t).reverse = [] :=
      List.drop_eq_nil_of_le (by simp)
    rw [e1, show t.length + 1 - (d :: t).reverse.length = 0 from by simp]
    rfl
  rw [h1, h2]
  rw [reMatch_findSome_cons_none [RegexItem.dotPlusGroup, RegexItem.eos] [] _ rfl]
  apply reMatch_findSome_cons_some
  rw [reMatch_dot_eos]
  rw [show List.takeWhile (fun x => !(x = '\n')) [c] = [c] from by
    simp [List.takeWhile_cons, hcn]]
  rw [show List.dropWhile (fun x => !(x = '\n')) [c] = [] from by
    simp [List.dropWhile_cons, hcn]]
  simp

theorem ws_dot_eos_allws_nl (u3 : List Char) (hv : u3.dropWhile isPySpace = [])
    (d e : Char) (t : List Char) (hr : u3.reverse = '\n' :: d :: e :: t)
    (hd : ¬(d = '\n')) :
    reMatch [RegexItem.wsPlus, RegexItem.dotPlusGroup, RegexItem.eos] u3 =
      some (some [d]) := by
  have hu : u3 = (e :: t).reverse ++ [d, '\n'] := by
    rw [← List.reverse_reverse u3, hr]
    simp
  have hlen : u3.length = t.length + 3 := by
    have hl2 := congrArg List.length hu
    simp at hl2
    omega
  rw [reMatch_ws, takeWhile_eq_self_of_dropWhile_nil _ _ hv, hlen,
    descSuffixes, descSuffixes, descSuffixes]
  have h1 : u3.drop (t.length + 3) = [] := by
    rw [← hlen]
    exact List.drop_length u3
  have h2 : u3.drop (t.length + 2) = ['\n'] := by
    rw [hu, List.drop_append_eq_append_drop]
    have e1 : List.drop (t.length + 2) (e :: t).reverse = [] :=
      List.drop_eq_nil_of_le (by simp)
    rw [e1, show t.length + 2 - (e :: t).reverse.length = 1 from by simp]
    rfl
  have h3 : u3.drop (t.length + 1) = [d, '\n'] := by
    rw [hu, List.drop_append_eq_append_drop]
    have e1 : List.drop (t.length + 1) (e :: t).reverse = [] :=
      List.drop_eq_nil_of_le (by simp)
    rw [e1, show t.length + 1 - (e :: t).reverse.length = 0 from by simp]
    rfl
  rw [h1, h2, h3]
  rw [reMatch_findSome_cons_none [RegexItem.dotPlusGroup, RegexItem.eos] [] _ rfl]
  rw [reMatch_findSome_cons_none [RegexItem.dotPlusGroup, RegexItem.eos] ['\n'] _ rfl]
  apply reMatch_findSome_cons_some
  rw [reMatch_dot_eos]
  rw [show List.takeWhile (fun x => !(x = '\n')) [d, '\n'] = [d] from by
    simp [List.takeWhile_cons, hd]]
  rw [show List.dropWhile (fun x => !(x = '\n')) [d, '\n'] = ['\n'] from by
    simp [List.dropWhile_cons, hd]]
  simp

theorem ws_dot_eos_allws_two (u3 : List Char) (hv : u3.dropWhile isPySpace = [])
    (d : Char) (hr : u3.reverse = ['\n', d]) :
    reMatch [RegexItem.wsPlus, RegexItem.dotPlusGroup, RegexItem.eos] u3 = none := by
  have hu : u3 = [d, '\n'] := by
    rw [← List.reverse_reverse u3, hr]
    rfl
  rw [reMatch_ws, takeWhile_eq_self_of_dropWhile_nil _ _ hv, hu]
  rw [show descSuffixes [d, '\n'] ([d, '\n'].length) = [([] : List Char), ['\n']] from rfl]
  rw [reMatch_findSome_cons_none [RegexItem.dotPlusGroup, RegexItem.eos] [] _ rfl]
  rw [reMatch_findSome_cons_none [RegexItem.dotPlusGroup, RegexItem.eos] ['\n'] _ rfl]
  rfl

theorem ws_dot_eos_allws_nlnl (u3 : List Char) (hv : u3.dropWhile isPySpace = [])
    (t : List Char) (hr : u3.reverse = '\n' :: '\n' :: t) :
    reMatch [RegexItem.wsPlus, RegexItem.dotPlusGroup, RegexItem.eos] u3 = none := by
  have hu : u3 = t.reverse ++ ['\n', '\n'] := by
    rw [← List.reverse_reverse u3, hr]
    simp
  have hlen : u3.length = t.length + 2 := by
    have hl2 := congrArg List.length hu
    simp at hl2
    omega
  rw [reMatch_ws, takeWhile_eq_self_of_dropWhile_nil _ _ hv]
  apply List.findSome?_eq_none.mpr
  intro s hs
  obtain ⟨j, hj1, hj2, hj3⟩ := descSuffixes_mem u3 _ s hs
  subst hj3
  show reMatch [RegexItem.dotPlusGroup, RegexItem.eos] (u3.drop j) = none
  rcases Nat.lt_or_ge j (t.length + 1) with hj4 | hj4
  · have hsplit : u3.drop j = (t.reverse.drop j) ++ ['\n', '\n'] := by
      rw [hu, List.drop_append_eq_append_drop,
        show j - t.reverse.length = 0 from by rw [List.length_reverse]; omega,
        List.drop_zero]
    rw [hsplit]
    exact dotEos_append_none ['\n', '\n'] (by simp) (by decide) _
  · rcases Nat.lt_or_ge j (t.length + 2) with hj5 | hj5
    · have hj6 : j = t.length + 1 := by omega
      subst hj6
      have hsplit : u3.drop (t.length + 1) = ['\n'] := by
        rw [hu, List.drop_append_eq_append_drop]
        have e1 : List.drop (t.length + 1) t.reverse = [] :=
          List.drop_eq_nil_of_le (by rw [List.length_reverse]; omega)
        rw [e1, show t.length + 1 - t.reverse.length = 1 from by
          rw [List.length_reverse]; omega]
        rfl
      rw [hsplit]
      rfl
    · have hj7 : j = t.length + 2 := by omega
      subst hj7
      rw [show u3.drop (t.length + 2) = [] from by rw [← hlen]; exact List.drop_length u3]
      rfl

/-- The full greedy match of `^Padres\s+de\s+(.+)$` computes the
backtracking-free closed form `padresDirect`. -/
theorem reMatch_padres (l : List Char) :
    reMatch padresPattern l = Option.map some (padresDirect l) := by
  rw [show padresPattern = [RegexItem.lit "Padres".data, RegexItem.wsPlus,
    RegexItem.lit "de".data, RegexItem.wsPlus, RegexItem.dotPlusGroup,
    RegexItem.eos] from rfl]
  rw [reMatch_lit]
  cases h1 : stripLitCI "Padres".data l with
  | none => simp [padresDirect, h1]
  | some u1 =>
    show reMatch [RegexItem.wsPlus, RegexItem.lit "de".data, RegexItem.wsPlus,
      RegexItem.dotPlusGroup, RegexItem.eos] u1 = Option.map some (padresDirect l)
    rw [reMatch_ws_de]
    by_cases h2 : u1.takeWhile isPySpace = []
    · rw [if_pos h2]
      simp [padresDirect, h1, h2]
    · rw [if_neg h2, reMatch_lit]
      cases h3 : stripLitCI "de".data (u1.dropWhile isPySpace) with
      | none => simp [padresDirect, h1, h2, h3]
      | some u3 =>
        show reMatch [RegexItem.wsPlus, RegexItem.dotPlusGroup, RegexItem.eos] u3 =
          Option.map some (padresDirect l)
        by_cases h4 : u3.takeWhile isPySpace = []
        · rw [ws_dot_eos_empty u3 h4]
          simp [padresDirect, h1, h2, h3, h4]
        · cases h5 : u3.dropWhile isPySpace with
          | cons c v2 =>
            by_cases h6 : (u3.dropWhile isPySpace).dropWhile (fun x => !(x = '\n')) = [] ∨
                (u3.dropWhile isPySpace).dropWhile (fun x => !(x = '\n')) = ['\n']
            · rw [ws_dot_eos_some u3 h4 h6 c v2 h5]
              rw [h5] at h6
              simp [padresDirect, h1, h2, h3, h4, h5]
              rcases h6 with h6 | h6
              · exact Or.inl (by simpa using h6)
              · exact Or.inr h6
            · rw [ws_dot_eos_fail u3 (by rw [h5]; simp) h6]
              rw [h5] at h6
              simp [padresDirect, h1, h2, h3, h4, h5]
              have h7 : ¬((¬c = '\n' ∧ ∀ a ∈ v2, ¬a = '\n') ∨
                  List.dropWhile (fun x => !(x = '\n')) (c :: v2) = ['\n']) := by
                rintro (h7 | h7)
                · exact h6 (Or.inl (by simpa using h7))
                · exact h6 (Or.inr h7)
              rw [if_neg h7]
          | nil =>
            have htw : u3.takeWhile isPySpace = u3 :=
              takeWhile_eq_self_of_dropWhile_nil _ _ h5
            cases hr : u3.reverse with
            | nil =>
              have hu : u3 = [] := by
                rw [← List.reverse_reverse u3, hr]
                rfl
              rw [hu] at h4
              exact absurd rfl h4
            | cons c t =>
              have hne : u3 ≠ [] := by
                intro he
                rw [he] at hr
                exact absurd hr (by simp)
              cases t with
              | nil =>
                rw [ws_dot_eos_allws_single u3 h5 c hr]
                simp [padresDirect, h1, h2, h3, h4, h5, htw, hr, hne]
              | cons d t2 =>
                by_cases hc : c = '\n'
                · subst hc
                  cases t2 with
                  | nil =>
                    rw [ws_dot_eos_allws_two u3 h5 d hr]
                    simp [padresDirect, h1, h2, h3, h4, h5, htw, hr, hne]
                  | cons e t3 =>
                    by_cases hd : d = '\n'
                    · subst hd
                      rw [ws_dot_eos_allws_nlnl u3 h5 (e :: t3) hr]
                      simp [padresDirect, h1, h2, h3, h4, h5, htw, hr, hne]
                    · rw [ws_dot_eos_allws_nl u3 h5 d e t3 hr hd]
                      simp [padresDirect, h1, h2, h3, h4, h5, htw, hr, hd, hne]
                · rw [ws_dot_eos_allws_last u3 h5 c d t2 hr hc]
                  simp [padresDirect, h1, h2, h3, h4, h5, htw, hr, hc, hne]

/-- C2 (amended): extraction is the closed form of the greedy pattern: a
title matching, case-insensitively, `Padres`, one or more whitespace
characters, `de`, one or more whitespace characters, then a captured
non-empty run extending to the end or to just before a single trailing
newline, yields (normalize(capture), true); the empty title yields
("", false); every other title yields (normalize(title), false).  The
spec's literal single-space reading of the separator is corrected to the
whitespace runs `\s+` of the source pattern. -/
theorem c2_extraction_pattern (t : String) :
    extract_patient_name t = extractDirect t := by
  unfold extract_patient_name extractDirect
  by_cases h : t = ""
  · rw [if_pos h, if_pos h]
  · rw [if_neg h, if_neg h, reMatch_padres]
    cases hp : padresDirect t.data with
    | none => rfl
    | some g => rfl

/-- C2 counterexample: the title `Padres  de X` (two spaces) does not
match the claim's literal `Padres de ` prefix, so the claim classifies it
as an ordinary title with extraction (normalize(title), false); the code's
regex accepts it and returns ("X", true). -/
theorem c2_counterexample :
    claimLiteralRemainder "Padres  de X" = none ∧
    extract_patient_name "Padres  de X" = ("X", true) ∧
    ¬(extract_patient_name "Padres  de X" =
        (normalize_patient_name "Padres  de X", false)) := by
  decide

end GCal
